import Mathlib

/-!
Shallow embedding of the causal-flow analysis engine of the TP_MCI
repository (files v2.py, Bayesian_Causality.py, tp.py), together with
theorems checking the natural-language specification against it.

Python dictionaries are modelled as association lists (first match wins,
append on fresh insertion), Python sets as lists with membership, and
Python object identity on Node values as name equality (every node name
maps to a single shared Node object in the source, so identity of Node
objects coincides with equality of their names).
-/

namespace BayesNet

/-- NodeState enum of the source (known / unknown). -/
inductive NodeState where
  | known
  | unknown
deriving DecidableEq, Repr

/-- Direction enum of the source (FORWARD "->" / BACKWARD "<-"). -/
inductive Direction where
  | forward
  | backward
deriving DecidableEq, Repr

/-- RelationType enum of the source (convergente / series / divergente). -/
inductive RelationType where
  | convergente
  | series
  | divergente
deriving DecidableEq, Repr

/-- Node class: a name and a knowledge state. -/
structure Node where
  name : String
  state : NodeState
deriving DecidableEq, Repr

/-- Relation class: a source node, a target node and a direction tag. -/
structure Relation where
  source : Node
  target : Node
  direction : Direction
deriving DecidableEq, Repr

/-- NodeState.value of the source enum. -/
def NodeState.val : NodeState → String
  | .known => "known"
  | .unknown => "unknown"

/-- Node.__str__ of the source. -/
def Node.toStr (n : Node) : String :=
  n.name ++ (" (") ++ n.state.val ++ (")")

/-- Lookup in a name-keyed node dictionary (first match wins). -/
def lookupNode (ns : List Node) (name : String) : Option Node :=
  ns.find? (fun n => n.name == name)

/-! ### The v2.py BayesianNetwork -/

/-- BayesianNetwork state of v2.py: a node dict, a relation list and an
adjacency dict mapping a name to its outgoing (neighbor, direction) list. -/
structure NetworkV2 where
  nodes : List Node
  relations : List Relation
  adjacency : List (String × List (String × Direction))
deriving DecidableEq, Repr

/-- The empty v2 network (the constructor). -/
def NetworkV2.empty : NetworkV2 := ⟨[], [], []⟩

/-- v2.py add_node: insert the node only when the name is fresh, also
creating its empty adjacency entry. -/
def NetworkV2.addNode (net : NetworkV2) (name : String) (state : NodeState) : NetworkV2 :=
  if (lookupNode net.nodes name).isSome then net
  else { nodes := net.nodes ++ [⟨name, state⟩],
         relations := net.relations,
         adjacency := net.adjacency ++ [(name, [])] }

/-- Append a value to the adjacency list of an existing key.  In the source
this is a dict-index assignment; the key always exists at the call sites
(add_relation registers both endpoints first). -/
def adjAppend (adj : List (String × List (String × Direction))) (key : String)
    (val : String × Direction) : List (String × List (String × Direction)) :=
  adj.map (fun p => if p.1 == key then (p.1, p.2 ++ [val]) else p)

/-- v2.py add_relation: register both endpoints, append the relation exactly
as given (no swap), and update the adjacency — for FORWARD the pair
(target, direction) is appended under source, for BACKWARD the pair
(source, direction) is appended under target. -/
def NetworkV2.addRelation (net : NetworkV2) (source target : String) (direction : Direction)
    (sourceState targetState : NodeState) : NetworkV2 :=
  let net1 := net.addNode source sourceState
  let net2 := net1.addNode target targetState
  let sourceNode := (lookupNode net2.nodes source).getD ⟨source, sourceState⟩
  let targetNode := (lookupNode net2.nodes target).getD ⟨target, targetState⟩
  { nodes := net2.nodes,
    relations := net2.relations ++ [⟨sourceNode, targetNode, direction⟩],
    adjacency :=
      if direction = Direction.forward then adjAppend net2.adjacency source (target, direction)
      else adjAppend net2.adjacency target (source, direction) }

/-- Existence of a stored relation from name `a` to name `b` (the `any`
scans at the top of determine_relation_type). -/
def hasDirectedEdge (rels : List Relation) (a b : String) : Bool :=
  rels.any (fun r => r.source.name == a && r.target.name == b)

/-- v2.py determine_relation_type: test SERIES, then DIVERGENT, then
CONVERGENT over the stored relation list, first match wins. -/
def NetworkV2.determineRelationType (net : NetworkV2) (x z y : String) :
    Option RelationType :=
  let xToZ := hasDirectedEdge net.relations x z
  let zToX := hasDirectedEdge net.relations z x
  let zToY := hasDirectedEdge net.relations z y
  let yToZ := hasDirectedEdge net.relations y z
  if xToZ && zToY then some RelationType.series
  else if zToX && zToY then some RelationType.divergente
  else if xToZ && yToZ then some RelationType.convergente
  else none

/-- v2.py check_triple_flow: look up z's node (a KeyError in the source when
z is not a node, modelled as `none`), classify, then apply the flow rule
with its justification string. -/
def NetworkV2.checkTripleFlow (net : NetworkV2) (x z y : String) :
    Option (Bool × String) :=
  match lookupNode net.nodes z with
  | none => none
  | some zNode =>
    match net.determineRelationType x z y with
    | some RelationType.series =>
        if zNode.state = NodeState.unknown then
          some (true, ("Series: Flow allowed through ") ++ z ++ (" (unknown)"))
        else some (false, ("Series: Blocked at ") ++ z ++ (" (known)"))
    | some RelationType.divergente =>
        if zNode.state = NodeState.unknown then
          some (true, ("Divergent: Flow allowed from ") ++ x ++ (" to ") ++ y ++
            ("   via ") ++ z ++ (" (unknown)"))
        else some (false, ("Divergent: Blocked at ") ++ z ++ (" (known)"))
    | some RelationType.convergente =>
        if zNode.state = NodeState.known then
          some (true, ("Convergent: Flow allowed between ") ++ x ++ (" and ") ++ y ++
            (" via ") ++ z ++ (" (known)"))
        else some (false, ("Convergent: Blocked at ") ++ z ++ (" (unknown)"))
    | none => some (false, ("Unknown relationship pattern"))

/-- Adjacency lookup with empty default (`self.adjacency.get(node, [])`). -/
def NetworkV2.adjGet (net : NetworkV2) (name : String) : List (String × Direction) :=
  ((net.adjacency.find? (fun p => p.1 == name)).map (fun p => p.2)).getD []

/-- The recursive dfs helper of v2.py get_all_paths.  `path` is the stack of
nodes below the current one; every prefix of length at least 2 is recorded,
and reaching the start of the path again with length at least 3 records the
closed cycle without recursing.  Recursion is structural on `fuel`; under
the invariant `fuel + length = maxLength + 1` maintained by get_all_paths,
the fuel-exhausted branch coincides with the source's own length guard, so
the embedding computes exactly what the source computes. -/
def dfsPaths (net : NetworkV2) (maxLength : Nat) :
    Nat → String → List String → Nat → List (List String)
  | 0, _, _, _ => []
  | fuel + 1, node, path, length =>
    if maxLength < length then []
    else
      let path' := path ++ [node]
      let recorded := if 1 < path'.length then [path'] else []
      recorded ++ (net.adjGet node).flatMap (fun nb =>
        if nb.1 ∈ path' then
          if path'.head? = some nb.1 ∧ 3 ≤ path'.length then [path' ++ [nb.1]] else []
        else dfsPaths net maxLength fuel nb.1 path' (length + 1))

/-- v2.py get_all_paths; `maxLength` is the max_length parameter, whose
source default is 100. -/
def NetworkV2.getAllPaths (net : NetworkV2) (start : String) (maxLength : Nat) :
    List (List String) :=
  dfsPaths net maxLength (maxLength + 1) start [] 0

/-! ### The Bayesian_Causality.py BayesianNetwork -/

/-- BayesianNetwork state of Bayesian_Causality.py: a node dict and a
relation list (no adjacency structure in this variant). -/
structure NetworkBC where
  nodes : List Node
  relations : List Relation
deriving DecidableEq, Repr

/-- The empty Bayesian_Causality network (the constructor). -/
def NetworkBC.empty : NetworkBC := ⟨[], []⟩

/-- Bayesian_Causality.py add_node: insert only when the name is fresh. -/
def NetworkBC.addNode (net : NetworkBC) (name : String) (state : NodeState) : NetworkBC :=
  if (lookupNode net.nodes name).isSome then net
  else { net with nodes := net.nodes ++ [⟨name, state⟩] }

/-- Bayesian_Causality.py add_relation: register both endpoints, then append
the relation exactly as given (no swap, direction tag kept). -/
def NetworkBC.addRelation (net : NetworkBC) (sourceName targetName : String)
    (direction : Direction) (sourceState targetState : NodeState) : NetworkBC :=
  let net1 := net.addNode sourceName sourceState
  let net2 := net1.addNode targetName targetState
  let source := (lookupNode net2.nodes sourceName).getD ⟨sourceName, sourceState⟩
  let target := (lookupNode net2.nodes targetName).getD ⟨targetName, targetState⟩
  { net2 with relations := net2.relations ++ [⟨source, target, direction⟩] }

/-- The neighbor list computed at the top of the dfs in has_cycle: targets
of FORWARD relations whose source is the given node (Python compares Node
objects by identity, which coincides with name equality since every name
maps to one shared object). -/
def bcNeighbors (net : NetworkBC) (nodeName : String) : List String :=
  net.relations.filterMap (fun r =>
    if r.source.name == nodeName && (r.direction == Direction.forward) then
      some r.target.name
    else none)

/-- Lookup in the parent dictionary of has_cycle (entries are None for dfs
roots, some parent for tree edges). -/
def lookupParent (parent : List (String × Option String)) (n : String) :
    Option (Option String) :=
  (parent.find? (fun p => p.1 == n)).map (fun p => p.2)

/-- The while-loop of has_cycle reconstructing a cycle: starting at
`current`, repeatedly step to the recorded parent, collecting each parent
reached, until `target` is collected.  Structural on `fuel`; the call site
passes one more than the number of parent entries, which (the walk steps
down a duplicate-free ancestor chain containing `target`) is always enough.
A missing parent entry would be a KeyError in the source; it stops the walk
here and is unreachable from has_cycle. -/
def walkParents (parent : List (String × Option String)) :
    Nat → String → String → List String
  | 0, _, _ => []
  | fuel + 1, current, target =>
    if current == target then []
    else
      match lookupParent parent current with
      | some (some p) => p :: walkParents parent fuel p target
      | _ => []

/-- The mutable state shared by all dfs calls of has_cycle: the visited
set, the parent dictionary, and the cycle list (empty = not found). -/
structure BcAcc where
  visited : List String
  parent : List (String × Option String)
  cycle : List String
deriving DecidableEq, Repr

/-- One activation record of the recursive dfs of has_cycle: `visit node rs`
is a dfs(node) call about to start with recursion stack `rs` below it;
`loop node rs' nbs` is the neighbor loop of dfs(node) with the stack `rs'`
(= node :: rs) already pushed and `nbs` the neighbors still to process. -/
inductive BcTask where
  | visit (node : String) (recStack : List String)
  | loop (node : String) (recStack : List String) (nbs : List String)
deriving DecidableEq, Repr

/-- The dfs of has_cycle, as a fuel-indexed step function (every recursive
call consumes one unit, making recursion structural and kernel-computable).
Mirrors the source: entering a node marks it visited and pushes it; each
unvisited neighbor gets a parent entry and a recursive dfs whose `true`
result propagates; a visited neighbor on the recursion stack (with no cycle
recorded yet) reconstructs the cycle from the parent chain, appends the
closing node, reverses, and returns true; other neighbors are skipped.
Exhausted fuel returns false without visiting; has_cycle passes a fuel the
lemmas below show sufficient. -/
def bcRun (net : NetworkBC) : Nat → BcTask → BcAcc → Bool × BcAcc
  | 0, _, acc => (false, acc)
  | fuel + 1, BcTask.visit node rs, acc =>
      bcRun net fuel (BcTask.loop node (node :: rs) (bcNeighbors net node))
        { acc with visited := node :: acc.visited }
  | fuel + 1, BcTask.loop node rs' nbs, acc =>
      match nbs with
      | [] => (false, acc)
      | nb :: rest =>
        if nb ∈ acc.visited then
          if nb ∈ rs' ∧ acc.cycle = [] then
            (true, { acc with cycle :=
              (node :: (walkParents acc.parent (acc.parent.length + 1) node nb ++ [nb])).reverse })
          else bcRun net fuel (BcTask.loop node rs' rest) acc
        else
          let acc' := { acc with parent := acc.parent ++ [(nb, some node)] }
          match bcRun net fuel (BcTask.visit nb rs') acc' with
          | (true, acc'') => (true, acc'')
          | (false, acc'') => bcRun net fuel (BcTask.loop node rs' rest) acc''

/-- Every name the dfs of has_cycle can ever visit: registered node names
and forward-relation targets. -/
def bcUniverse (net : NetworkBC) : List String :=
  net.nodes.map Node.name ++ net.relations.map (fun r => r.target.name)

/-- Fuel passed to bcRun by has_cycle: enough for every node visit plus a
full neighbor-loop traversal per visit. -/
def bcFuel (net : NetworkBC) : Nat :=
  (bcUniverse net).length * (net.relations.length + 2) + 1

/-- The outer loop of has_cycle over the node dictionary: start a dfs (with
a None parent entry) at every not-yet-visited node, returning the cycle of
the first dfs that finds one. -/
def bcHasCycleGo (net : NetworkBC) : List Node → BcAcc → List String
  | [], _ => []
  | n :: rest, acc =>
    if n.name ∈ acc.visited then bcHasCycleGo net rest acc
    else
      let acc' := { acc with parent := acc.parent ++ [(n.name, none)] }
      match bcRun net (bcFuel net) (BcTask.visit n.name []) acc' with
      | (true, acc'') => acc''.cycle
      | (false, acc'') => bcHasCycleGo net rest acc''

/-- Bayesian_Causality.py has_cycle. -/
def NetworkBC.hasCycle (net : NetworkBC) : List String :=
  bcHasCycleGo net net.nodes { visited := [], parent := [], cycle := [] }

/-- The enumerate(...)[i+1:] double loop of find_all_triplets: all ordered
pairs (earlier, strictly later) of a list. -/
def orderedPairs {α : Type} : List α → List (α × α)
  | [] => []
  | a :: rest => rest.map (fun b => (a, b)) ++ orderedPairs rest

/-- Bayesian_Causality.py find_all_triplets: series triplets from pairs of
chained FORWARD relations, then convergente triplets from pairs of incoming
FORWARD relations of each node, then divergente triplets from pairs of
outgoing FORWARD relations, each with its path-segment string. -/
def NetworkBC.findAllTriplets (net : NetworkBC) :
    List (Node × Node × Node × String × RelationType) :=
  let series := net.relations.flatMap (fun rel1 =>
    if rel1.direction = Direction.forward then
      net.relations.filterMap (fun rel2 =>
        if rel2.source.name == rel1.target.name && (rel2.direction == Direction.forward) then
          some (rel1.source, rel1.target, rel2.target,
            rel1.source.name ++ ("->") ++ rel1.target.name ++ ("->") ++ rel2.target.name,
            RelationType.series)
        else none)
    else [])
  let convergente := net.nodes.flatMap (fun z =>
    let incoming := net.relations.filter (fun r =>
      r.target.name == z.name && (r.direction == Direction.forward))
    if 2 ≤ incoming.length then
      (orderedPairs incoming).map (fun p =>
        (p.1.source, z, p.2.source,
          p.1.source.name ++ ("->") ++ z.name ++ ("<->") ++ p.2.source.name,
          RelationType.convergente))
    else [])
  let divergente := net.nodes.flatMap (fun z =>
    let outgoing := net.relations.filter (fun r =>
      r.source.name == z.name && (r.direction == Direction.forward))
    if 2 ≤ outgoing.length then
      (orderedPairs outgoing).map (fun p =>
        (p.1.target, z, p.2.target,
          z.name ++ ("->") ++ p.1.target.name ++ (",") ++ z.name ++ ("->") ++ p.2.target.name,
          RelationType.divergente))
    else [])
  series ++ convergente ++ divergente

/-- Insertion into the valid_triplets dict: overwrite in place when the key
exists, append otherwise (Python dict assignment keeps the original
position of an existing key). -/
def upsertValid (m : List ((String × String × String) × (String × RelationType)))
    (k : String × String × String) (v : String × RelationType) :
    List ((String × String × String) × (String × RelationType)) :=
  if m.any (fun p => p.1 == k) then m.map (fun p => if p.1 == k then (p.1, v) else p)
  else m ++ [(k, v)]

/-- The triplet loop of compute_final_path: collect the valid triplets (the
ones whose middle-node state permits flow for their pattern) and the full
justification line list. -/
def bcProcessTriplets (triplets : List (Node × Node × Node × String × RelationType)) :
    List ((String × String × String) × (String × RelationType)) × List String :=
  triplets.foldl (fun acc t =>
    let (x, z, y, seg, rt) := t
    match rt with
    | RelationType.series =>
        if z.state = NodeState.unknown then
          (upsertValid acc.1 (x.name, z.name, y.name) (seg, rt),
           acc.2 ++ [("Information can flow from ") ++ x.toStr ++ (" to ") ++ y.toStr ++
             (" because ") ++ z.toStr ++ (" is unknown (en série)")])
        else
          (acc.1, acc.2 ++ [("Information cannot flow from ") ++ x.toStr ++ (" to ") ++
            y.toStr ++ (" because ") ++ z.toStr ++ (" is known (en série)")])
    | RelationType.convergente =>
        if z.state = NodeState.known then
          (upsertValid acc.1 (x.name, z.name, y.name) (seg, rt),
           acc.2 ++ [("Information can flow from ") ++ x.toStr ++ (" to ") ++ y.toStr ++
             (" because ") ++ z.toStr ++ (" is known (convergente)")])
        else
          (acc.1, acc.2 ++ [("Information cannot flow from ") ++ x.toStr ++ (" to ") ++
            y.toStr ++ (" because ") ++ z.toStr ++ (" is unknown (convergente)")])
    | RelationType.divergente =>
        if z.state = NodeState.unknown then
          (upsertValid acc.1 (x.name, z.name, y.name) (seg, rt),
           acc.2 ++ [("Information can flow from ") ++ x.toStr ++ (" to ") ++ y.toStr ++
             (" because ") ++ z.toStr ++ (" is unknown (divergente)")])
        else
          (acc.1, acc.2 ++ [("Information cannot flow from ") ++ x.toStr ++ (" to ") ++
            y.toStr ++ (" because ") ++ z.toStr ++ (" is known (divergente)")]))
    ([], [])

/-- first_nodes of compute_final_path: names that are never the head of a
canonical edge (target of a FORWARD relation, source of a BACKWARD one). -/
def bcFirstNodes (net : NetworkBC) : List String :=
  (net.nodes.map Node.name).filter (fun n =>
    !(net.relations.any (fun r =>
      (if r.direction = Direction.forward then r.target.name else r.source.name) == n)))

/-- Path-segment lookup in the valid_triplets dict (always present at the
call sites of build_path). -/
def lookupValidSeg (m : List ((String × String × String) × (String × RelationType)))
    (k : String × String × String) : String :=
  ((m.find? (fun p => p.1 == k)).map (fun p => p.2.1)).getD ("")

/-- build_path of compute_final_path.  The source recursion keeps no visited
set, so on triplet chains that loop back it diverges (a RecursionError in
Python); fuel caps the model there, and a terminating source run never
revisits a triplet, so the fuel passed by finalAnalysis reproduces every
terminating run.  No theorem below depends on this function. -/
def bcBuildPath (valid : List ((String × String × String) × (String × RelationType)))
    (firstNodes : List String) :
    Nat → (String × String × String) → List String → String → List String
  | 0, _, _, _ => []
  | fuel + 1, cur, path, startNode =>
    let path := if path = [] then [lookupValidSeg valid cur] else path
    let nexts := valid.filterMap (fun p => if p.1.1 == cur.2.2 then some p.1 else none)
    if nexts = [] then
      if startNode ∈ firstNodes then [String.intercalate ("->") path] else []
    else nexts.flatMap (fun nt =>
      bcBuildPath valid firstNodes fuel nt (path ++ [lookupValidSeg valid nt]) startNode)

/-- The analysis part of compute_final_path, reached only when the network
has relations and no cycle: process all triplets, build the combined paths
from every valid triplet, and format the result with its justification. -/
def NetworkBC.finalAnalysis (net : NetworkBC) : String :=
  let p := bcProcessTriplets net.findAllTriplets
  let valid := p.1
  let justs := p.2
  let firstNodes := bcFirstNodes net
  let finalPaths := valid.foldl (fun acc q =>
    acc ++ bcBuildPath valid firstNodes (valid.length + 1) q.1 [] q.1.1) []
  let finalPath :=
    if finalPaths = [] then ("No path where information can flow")
    else String.intercalate ("\n") (finalPaths.map (fun s => ("Path: ") ++ s))
  let justification :=
    if justs = [] then ("Justification: No flow possible.")
    else ("Justification:\n") ++ String.intercalate ("\n") justs
  ("Final Paths:\n") ++ finalPath ++ ("\n") ++ justification

/-- Bayesian_Causality.py compute_final_path: the zero-relation guard, then
the cycle short-circuit, then the triplet/path analysis. -/
def NetworkBC.computeFinalPath (net : NetworkBC) : String :=
  if net.relations.length < 1 then ("Error: At least one relation is required.")
  else
    if net.hasCycle = [] then net.finalAnalysis
    else ("Cycle détecté : ") ++ String.intercalate (",") net.hasCycle

/-! ### The tp.py ModernBayesianNetworkApp analysis functions

The tp.py state is three fields: `variables` (a list of distinct names),
`relations` (a list of (cause, effect) pairs) and `etats` (a dict from
name to "connu"/"inconnu"), passed here explicitly. -/

/-- `self.etats.get(b, "inconnu")`. -/
def etatsGet (etats : List (String × String)) (b : String) : String :=
  ((etats.find? (fun p => p.1 == b)).map (fun p => p.2)).getD ("inconnu")

/-- The per-triplet body of tp.py detecter_relations_triplet: test Serie,
then Divergente, then Convergente against the relation set, producing the
first matching result line and nothing when none matches. -/
def detecterTriplet (relations : List (String × String)) (a b c : String) :
    Option String :=
  if relations.contains (a, b) && relations.contains (b, c) then
    some (("[Serie] ") ++ a ++ (" → ") ++ b ++ (" → ") ++ c)
  else if relations.contains (b, a) && relations.contains (b, c) then
    some (("[Divergente] ") ++ a ++ (" ← ") ++ b ++ (" → ") ++ c)
  else if relations.contains (a, b) && relations.contains (c, b) then
    some (("[Convergente] ") ++ a ++ (" → ") ++ b ++ (" ← ") ++ c)
  else none

/-- Depth-first search for a simple directed path from `cur` to `target`
avoiding `visited`; helper for the modelled tp.py has_cycle. -/
def tpFindPath (relations : List (String × String)) :
    Nat → String → String → List String → Option (List String)
  | 0, _, _, _ => none
  | fuel + 1, cur, target, visited =>
    if cur == target then some [cur]
    else if cur ∈ visited then none
    else (relations.filterMap (fun r => if r.1 == cur then some r.2 else none)).findSome?
      (fun nxt => (tpFindPath relations fuel nxt target (cur :: visited)).map
        (fun p => cur :: p))

/-- Modelled from the spec: tp.py has_cycle delegates to
networkx.find_cycle, an external library function whose code is not part
of this repository.  Per the spec (section 4.4) it searches depth-first
over the directed edges; as used by tp.py (`[node for node, _ in cycle]`)
the result is the node sequence of a found directed cycle without the
closing repetition, or the empty list for an acyclic graph.  Theorems
below rely only on whether this result is empty. -/
def tpHasCycle (vars : List String) (rels : List (String × String)) : List String :=
  match vars.findSome? (fun v =>
    (rels.filterMap (fun r => if r.1 == v then some r.2 else none)).findSome? (fun s =>
      (tpFindPath rels (vars.length + rels.length + 1) s v []).map
        (fun p => v :: p.dropLast))) with
  | some c => c
  | none => []

/-- The undirected neighbor relation of G.to_undirected(): u and v are
adjacent when either (u, v) or (v, u) is a relation. -/
def undNeighbors (vars : List String) (rels : List (String × String)) (v : String) :
    List String :=
  vars.filter (fun u => rels.contains (v, u) || rels.contains (u, v))

/-- Modelled from the spec: networkx all_simple_paths over the undirected
view (external library code; the spec's section 4.5 describes the
enumeration).  Depth-first enumeration of every simple path from `cur` to
`target`, with `path` the nodes already taken; only the set of returned
paths is relied on below. -/
def simplePathsUnd (vars : List String) (rels : List (String × String)) :
    Nat → String → String → List String → List (List String)
  | 0, _, _, _ => []
  | fuel + 1, cur, target, path =>
    let path' := path ++ [cur]
    if cur == target then [path']
    else (undNeighbors vars rels cur).flatMap (fun nb =>
      if nb ∈ path' then [] else simplePathsUnd vars rels fuel nb target path')

/-- All simple undirected paths between two distinct nodes. -/
def tpAllSimplePaths (vars : List String) (rels : List (String × String))
    (start target : String) : List (List String) :=
  simplePathsUnd vars rels (vars.length + 1) start target []

/-- One overlapping triple test of the first phase of
circulation_information: the triple must match Serie, Divergente or
Convergente and its middle-node state must permit flow; an unmatched
triple fails the path. -/
def tripleOkTp (rels : List (String × String)) (etats : List (String × String))
    (a b c : String) : Bool :=
  let etatB := etatsGet etats b
  if rels.contains (a, b) && rels.contains (b, c) then !(etatB == ("connu"))
  else if rels.contains (b, a) && rels.contains (b, c) then !(etatB == ("connu"))
  else if rels.contains (a, b) && rels.contains (c, b) then etatB == ("connu")
  else false

/-- The left-to-right triple scan with early exit of the first phase. -/
def passeTriples (rels : List (String × String)) (etats : List (String × String)) :
    List String → Bool
  | a :: b :: c :: rest =>
      tripleOkTp rels etats a b c && passeTriples rels etats (b :: c :: rest)
  | _ => true

/-- The first phase of circulation_information: for every target other
than the start node, keep the simple undirected paths of length at least 2
all of whose overlapping triples pass. -/
def cheminsValides (vars : List String) (rels : List (String × String))
    (etats : List (String × String)) (startNode : String) : List (List String) :=
  vars.flatMap (fun target =>
    if target == startNode then []
    else (tpAllSimplePaths vars rels startNode target).filter (fun p =>
      2 ≤ p.length && passeTriples rels etats p))

/-- The blocking-triple test of the second (truncation) phase: the same
three patterns, but a triple matching none of them does not truncate. -/
def tripleBlocksTp (rels : List (String × String)) (etats : List (String × String))
    (a b c : String) : Bool :=
  let etatB := etatsGet etats b
  if rels.contains (a, b) && rels.contains (b, c) then etatB == ("connu")
  else if rels.contains (b, a) && rels.contains (b, c) then etatB == ("connu")
  else if rels.contains (a, b) && rels.contains (c, b) then !(etatB == ("connu"))
  else false

/-- The stop condition of the truncation loop at position i (all three
breaks of the source produce the same truncation path[: i + 2]): a blocking
triple at i, or path[i+1] without outgoing relation, or path[i+1] unable to
start a further triplet away from path[i]. -/
def tronquerStop (vars : List String) (rels : List (String × String))
    (etats : List (String × String)) (path : List String) (i : Nat) : Bool :=
  let a := path.getD i ("")
  let b := path.getD (i + 1) ("")
  (if i + 2 < path.length then tripleBlocksTp rels etats a b (path.getD (i + 2) (""))
   else false)
  || !(rels.any (fun r => r.1 == b))
  || !(vars.any (fun c => rels.contains (b, c) && !(c == a)))

/-- The truncation loop of the second phase, iterating i over
range(len(path) - 1) and stopping at the first position whose stop
condition holds.  Structural on fuel = path.length, which covers every
iteration of the source loop. -/
def tronquerAux (vars : List String) (rels : List (String × String))
    (etats : List (String × String)) (path : List String) : Nat → Nat → List String
  | 0, _ => path
  | fuel + 1, i =>
    if i + 1 < path.length then
      if tronquerStop vars rels etats path i then path.take (i + 2)
      else tronquerAux vars rels etats path fuel (i + 1)
    else path

/-- The recorded (possibly truncated) form of one valid path. -/
def tronquer (vars : List String) (rels : List (String × String))
    (etats : List (String × String)) (path : List String) : List String :=
  tronquerAux vars rels etats path path.length 0

/-- The second phase of circulation_information: truncate every valid path
and deduplicate, keeping first occurrences in order. -/
def cheminsFinaux (vars : List String) (rels : List (String × String))
    (etats : List (String × String)) (startNode : String) : List (List String) :=
  (cheminsValides vars rels etats startNode).foldl (fun acc p =>
    let cf := tronquer vars rels etats p
    if cf ∈ acc then acc else acc ++ [cf]) []

/-- One justification line of justifier_chemin (with the source's literal
strings, including its "bloITIqué" typo); an unmatched triple produces no
line. -/
def justifierTriple (rels : List (String × String)) (etats : List (String × String))
    (a b c : String) : Option String :=
  let etatB := etatsGet etats b
  if rels.contains (a, b) && rels.contains (b, c) then
    some (("triple [") ++ a ++ (", ") ++ b ++ (", ") ++ c ++ ("] : série (") ++ a ++
      (" → ") ++ b ++ (" → ") ++ c ++ (") → ") ++
      (if etatB == ("connu") then ("bloqué car ") ++ b ++ (" est connu")
       else ("l\x27information passe car ") ++ b ++ (" est inconnu")))
  else if rels.contains (b, a) && rels.contains (b, c) then
    some (("triple [") ++ a ++ (", ") ++ b ++ (", ") ++ c ++ ("] : divergence (") ++ a ++
      (" ← ") ++ b ++ (" → ") ++ c ++ (") → ") ++
      (if etatB == ("connu") then ("bloITIqué car ") ++ b ++ (" est connu")
       else ("l\x27information passe car ") ++ b ++ (" est inconnu")))
  else if rels.contains (a, b) && rels.contains (c, b) then
    some (("triple [") ++ a ++ (", ") ++ b ++ (", ") ++ c ++ ("] : convergence (") ++ a ++
      (" → ") ++ b ++ (" ← ") ++ c ++ (") → ") ++
      (if !(etatB == ("connu")) then ("bloqué car ") ++ b ++ (" est inconnu")
       else ("l\x27information passe car ") ++ b ++ (" est connu")))
  else none

/-- tp.py justifier_chemin over the overlapping triples of a path. -/
def justifierChemin (rels : List (String × String)) (etats : List (String × String)) :
    List String → List String
  | a :: b :: c :: rest =>
      (match justifierTriple rels etats a b c with
       | some j => [j]
       | none => []) ++ justifierChemin rels etats (b :: c :: rest)
  | _ => []

/-- tp.py circulation_information, returning the list of displayed result
lines (the too-few-variables and no-start-node message boxes are modelled
as an empty result). -/
def circulationMessages (vars : List String) (rels : List (String × String))
    (etats : List (String × String)) (startNode0 : String) : List String :=
  if vars.length < 3 then []
  else
    let startNode := if startNode0 == ("") then vars.headD ("") else startNode0
    if startNode == ("") then []
    else
      let cycle := tpHasCycle vars rels
      if cycle = [] then
        let header := ("=== Chemin final où l\x27information peut circuler (commençant par ")
          ++ startNode ++ (") ===")
        let valides := cheminsValides vars rels etats startNode
        if valides = [] then [header, ("Aucun chemin valide trouvé.")]
        else
          let finaux := cheminsFinaux vars rels etats startNode
          if finaux = [] then [header, ("Aucun chemin valide trouvé.")]
          else header :: finaux.flatMap (fun chemin =>
            String.intercalate (" → ") chemin ::
              (justifierChemin rels etats chemin).map (fun j => ("    ") ++ j))
      else [("Cycle détecté : ") ++ String.intercalate (" → ") cycle]

/-! ### Specification-side predicates for cycle detection -/

/-- Forward-edge existence between two names: the edge relation over which
has_cycle searches. -/
def bcEdge (net : NetworkBC) (a b : String) : Bool :=
  net.relations.any (fun r =>
    r.source.name == a && r.target.name == b && (r.direction == Direction.forward))

/-- A directed walk along forward edges starting at `a` through the
successive nodes of `l`. -/
def isEdgePath (net : NetworkBC) : String → List String → Bool
  | _, [] => true
  | a, b :: rest => bcEdge net a b && isEdgePath net b rest

/-- Existence of a directed cycle over forward edges: some node has a
nonempty closed forward walk back to itself. -/
def hasDirectedCycle (net : NetworkBC) : Prop :=
  ∃ a l, isEdgePath net a (l ++ [a]) = true

/-- A duplicate-free nonempty node list reading off a directed cycle:
consecutive forward edges plus a closing forward edge from the last
element back to the head. -/
def isCycleList (net : NetworkBC) : List String → Prop
  | [] => False
  | h :: t => (h :: t).Nodup ∧ isEdgePath net h (t ++ [h]) = true

/-- Well-formedness used by cycle-detection completeness: every forward
relation's source is a registered node (true of every network built through
add_relation, which registers both endpoints). -/
def bcSourcesRegistered (net : NetworkBC) : Prop :=
  ∀ r ∈ net.relations, r.direction = Direction.forward →
    r.source.name ∈ net.nodes.map Node.name

instance (net : NetworkBC) : Decidable (bcSourcesRegistered net) :=
  List.decidableBAll _ net.relations

/-- How many universe names are still unvisited (the fuel measure). -/
def unvisCount (net : NetworkBC) (visited : List String) : Nat :=
  ((bcUniverse net).dedup.filter (fun n => !(decide (n ∈ visited)))).length

/-! ### Instrumented copy of the has_cycle dfs

For the completeness proof the dfs is replayed with one ghost field added:
`finished` records the nodes whose dfs call returned False, in completion
order.  The ghost field influences nothing; erasing it recovers bcRun
exactly (lemma bcRunI_erase below). -/

/-- BcAcc with the ghost completion-order list. -/
structure BcAccI where
  visited : List String
  parent : List (String × Option String)
  cycle : List String
  finished : List String
deriving DecidableEq, Repr

/-- Forget the ghost field. -/
def BcAccI.erase (acc : BcAccI) : BcAcc := ⟨acc.visited, acc.parent, acc.cycle⟩

/-- bcRun with the ghost `finished` list: identical control flow, plus the
node is appended to `finished` when its neighbor loop ends in False. -/
def bcRunI (net : NetworkBC) : Nat → BcTask → BcAccI → Bool × BcAccI
  | 0, _, acc => (false, acc)
  | fuel + 1, BcTask.visit node rs, acc =>
      bcRunI net fuel (BcTask.loop node (node :: rs) (bcNeighbors net node))
        { acc with visited := node :: acc.visited }
  | fuel + 1, BcTask.loop node rs' nbs, acc =>
      match nbs with
      | [] => (false, { acc with finished := acc.finished ++ [node] })
      | nb :: rest =>
        if nb ∈ acc.visited then
          if nb ∈ rs' ∧ acc.cycle = [] then
            (true, { acc with cycle :=
              (node :: (walkParents acc.parent (acc.parent.length + 1) node nb ++ [nb])).reverse })
          else bcRunI net fuel (BcTask.loop node rs' rest) acc
        else
          let acc' := { acc with parent := acc.parent ++ [(nb, some node)] }
          match bcRunI net fuel (BcTask.visit nb rs') acc' with
          | (true, acc'') => (true, acc'')
          | (false, acc'') => bcRunI net fuel (BcTask.loop node rs' rest) acc''

/-- The outer loop of has_cycle over the instrumented state. -/
def bcHasCycleGoI (net : NetworkBC) : List Node → BcAccI → List String × BcAccI
  | [], acc => ([], acc)
  | n :: rest, acc =>
    if n.name ∈ acc.visited then bcHasCycleGoI net rest acc
    else
      let acc' := { acc with parent := acc.parent ++ [(n.name, none)] }
      match bcRunI net (bcFuel net) (BcTask.visit n.name []) acc' with
      | (true, acc'') => (acc''.cycle, acc'')
      | (false, acc'') => bcHasCycleGoI net rest acc''

/-! ### Invariant predicates for the has_cycle proofs -/

/-- Every recorded tree-parent entry is a forward edge from the parent to
the child. -/
def ParentEdges (net : NetworkBC) (parent : List (String × Option String)) : Prop :=
  ∀ pr ∈ parent, ∀ q, pr.2 = some q → bcEdge net q pr.1 = true

/-- Consecutive elements of the list are linked by parent entries, the
deeper node first. -/
def chainLinked (parent : List (String × Option String)) : List String → Prop
  | x :: y :: rest => lookupParent parent x = some (some y) ∧ chainLinked parent (y :: rest)
  | _ => True

/-- The list is a complete parent chain: consecutive links, and a None
(root) entry for its last element. -/
def parentChain (parent : List (String × Option String)) : List String → Prop
  | [] => True
  | [x] => lookupParent parent x = some none
  | x :: y :: rest => lookupParent parent x = some (some y) ∧ parentChain parent (y :: rest)

/-- The shape has_cycle's result takes when a cycle is found: the closing
node duplicated at the front, followed by the body of a genuine directed
cycle. -/
def CycleShape (net : NetworkBC) (c : List String) : Prop :=
  ∃ w rest, c = w :: w :: rest ∧ isCycleList net (w :: rest)

/-- Soundness invariant on the shared dfs state: parent keys are visited
and parent entries are edges. -/
def SInv (net : NetworkBC) (acc : BcAcc) : Prop :=
  (∀ pr ∈ acc.parent, pr.1 ∈ acc.visited) ∧ ParentEdges net acc.parent

/-- Completion order respects edges: following any forward edge from a
finished node lands strictly earlier in the finished list. -/
def FinOrd (net : NetworkBC) (fin : List String) : Prop :=
  ∀ u w, bcEdge net u w = true → u ∈ fin → w ∈ fin ∧ fin.indexOf w < fin.indexOf u

/-- Completeness invariant on the instrumented dfs state relative to the
active stack: visited is exactly finished plus the stack, the two are
disjoint and duplicate-free, no cycle has been recorded, and the finished
list is edge-decreasing. -/
def CInv (net : NetworkBC) (stack : List String) (acc : BcAccI) : Prop :=
  (∀ x, x ∈ acc.visited ↔ (x ∈ acc.finished ∨ x ∈ stack)) ∧
  (∀ x ∈ stack, x ∉ acc.finished) ∧
  acc.finished.Nodup ∧ stack.Nodup ∧ acc.cycle = [] ∧ FinOrd net acc.finished

/-! ### Concrete example networks used by the theorems -/

/-- v2 network with X → Z → Y, every state unknown (Scenario A shape). -/
def exSeriesV2 : NetworkV2 :=
  (NetworkV2.empty.addRelation ("X") ("Z") Direction.forward NodeState.unknown
    NodeState.unknown).addRelation ("Z") ("Y") Direction.forward NodeState.unknown
    NodeState.unknown

/-- v2 network built from one call add_relation("a", "b", BACKWARD). -/
def exBackV2 : NetworkV2 :=
  NetworkV2.empty.addRelation ("a") ("b") Direction.backward NodeState.unknown
    NodeState.unknown

/-- v2 network built from one call add_relation("a", "b", FORWARD): same
nodes and same relation endpoints as exBackV2, differing only in the
direction tag. -/
def exForwardV2 : NetworkV2 :=
  NetworkV2.empty.addRelation ("a") ("b") Direction.forward NodeState.unknown
    NodeState.unknown

/-- Bayesian_Causality network with the Scenario D cycle A → B → C → A. -/
def exCycleBC : NetworkBC :=
  ((NetworkBC.empty.addRelation ("A") ("B") Direction.forward NodeState.unknown
    NodeState.unknown).addRelation ("B") ("C") Direction.forward NodeState.unknown
    NodeState.unknown).addRelation ("C") ("A") Direction.forward NodeState.unknown
    NodeState.unknown

/-- Bayesian_Causality network built from one backward relation. -/
def exBackBC : NetworkBC :=
  NetworkBC.empty.addRelation ("a") ("b") Direction.backward NodeState.unknown
    NodeState.unknown

/-- tp.py Scenario B variables: X(inconnu) → Z(connu) → Y(inconnu). -/
def tpVarsXZY : List String := [("X"), ("Z"), ("Y")]

/-- tp.py Scenario B relations. -/
def tpRelsB : List (String × String) := [(("X"), ("Z")), (("Z"), ("Y"))]

/-- tp.py Scenario B states. -/
def tpEtatsB : List (String × String) :=
  [(("X"), ("inconnu")), (("Z"), ("connu")), (("Y"), ("inconnu"))]

/-- tp.py Scenario C relations: X → Z ← Y. -/
def tpRelsC : List (String × String) := [(("X"), ("Z")), (("Y"), ("Z"))]

/-- tp.py Scenario C states: Z connu, X and Y inconnu. -/
def tpEtatsC : List (String × String) :=
  [(("X"), ("inconnu")), (("Z"), ("connu")), (("Y"), ("inconnu"))]

/-- tp.py cyclic example variables. -/
def tpVarsCyc : List String := [("A"), ("B"), ("C")]

/-- tp.py cyclic example relations: A → B → C → A. -/
def tpRelsCyc : List (String × String) :=
  [(("A"), ("B")), (("B"), ("C")), (("C"), ("A"))]

/-! ## Basic lookup lemmas -/

theorem lookupNode_name {ns : List Node} {nm : String} {nd : Node}
    (h : lookupNode ns nm = some nd) : nd.name = nm := by
  have := List.find?_some h
  simpa using this

theorem lookupNode_mem {ns : List Node} {nm : String} {nd : Node}
    (h : lookupNode ns nm = some nd) : nd ∈ ns :=
  List.mem_of_find?_eq_some h

theorem lookupNode_append_left {ns : List Node} (ms : List Node) {nm : String} {nd : Node}
    (h : lookupNode ns nm = some nd) : lookupNode (ns ++ ms) nm = some nd := by
  unfold lookupNode at *
  rw [List.find?_append, h]
  rfl

theorem lookupNode_append_fresh (ns : List Node) (nm : String) (s : NodeState)
    (h : lookupNode ns nm = none) :
    lookupNode (ns ++ [⟨nm, s⟩]) nm = some ⟨nm, s⟩ := by
  unfold lookupNode at *
  rw [List.find?_append, h]
  simp

/-- add_node (v2) always leaves a node of the requested name retrievable. -/
theorem addNodeV2_lookup_self (net : NetworkV2) (nm : String) (st : NodeState) :
    ∃ nd, lookupNode (net.addNode nm st).nodes nm = some nd ∧ nd.name = nm := by
  unfold NetworkV2.addNode
  cases h : lookupNode net.nodes nm with
  | some nd => exact ⟨nd, by simp [h], lookupNode_name h⟩
  | none =>
      refine ⟨⟨nm, st⟩, ?_, rfl⟩
      simp only [h, Option.isSome_none, Bool.false_eq_true, if_false]
      exact lookupNode_append_fresh _ _ _ h

/-- add_node (Bayesian_Causality) always leaves a node of the requested
name retrievable. -/
theorem addNodeBC_lookup_self (net : NetworkBC) (nm : String) (st : NodeState) :
    ∃ nd, lookupNode (net.addNode nm st).nodes nm = some nd ∧ nd.name = nm := by
  unfold NetworkBC.addNode
  cases h : lookupNode net.nodes nm with
  | some nd => exact ⟨nd, by simp [h], lookupNode_name h⟩
  | none =>
      refine ⟨⟨nm, st⟩, ?_, rfl⟩
      simp only [h, Option.isSome_none, Bool.false_eq_true, if_false]
      exact lookupNode_append_fresh _ _ _ h

/-- add_node (v2) keeps every retrievable node retrievable unchanged. -/
theorem addNodeV2_lookup_mono (net : NetworkV2) (nm other : String) (st : NodeState)
    {nd : Node} (h : lookupNode net.nodes other = some nd) :
    lookupNode (net.addNode nm st).nodes other = some nd := by
  unfold NetworkV2.addNode
  cases hm : (lookupNode net.nodes nm).isSome with
  | true => simpa [hm] using h
  | false => simpa [hm] using lookupNode_append_left _ h

/-- add_node (Bayesian_Causality) keeps every retrievable node retrievable
unchanged. -/
theorem addNodeBC_lookup_mono (net : NetworkBC) (nm other : String) (st : NodeState)
    {nd : Node} (h : lookupNode net.nodes other = some nd) :
    lookupNode (net.addNode nm st).nodes other = some nd := by
  unfold NetworkBC.addNode
  cases hm : (lookupNode net.nodes nm).isSome with
  | true => simpa [hm] using h
  | false => simpa [hm] using lookupNode_append_left _ h

/-! ## C1 -/

/-- C1: for pairwise-distinct names x, z, y with z a registered node, v2
check_triple_flow allows flow iff z's state is UNKNOWN when the triple
classifies as SERIES or DIVERGENT, iff z's state is KNOWN when it
classifies as CONVERGENT, and never when it is unclassifiable. -/
theorem c1_triple_flow_rule (net : NetworkV2) (x z y : String)
    (_hxz : x ≠ z) (_hzy : z ≠ y) (_hxy : x ≠ y)
    (zNode : Node) (hz : lookupNode net.nodes z = some zNode) :
    ((net.determineRelationType x z y = some RelationType.series ∨
      net.determineRelationType x z y = some RelationType.divergente) →
      ∃ s, net.checkTripleFlow x z y =
        some (decide (zNode.state = NodeState.unknown), s)) ∧
    (net.determineRelationType x z y = some RelationType.convergente →
      ∃ s, net.checkTripleFlow x z y =
        some (decide (zNode.state = NodeState.known), s)) ∧
    (net.determineRelationType x z y = none →
      ∃ s, net.checkTripleFlow x z y = some (false, s)) := by
  unfold NetworkV2.checkTripleFlow
  rw [hz]
  refine ⟨?_, ?_, ?_⟩
  · rintro (h | h) <;> rw [h] <;> cases hs : zNode.state <;> simp [hs]
  · intro h
    rw [h]
    cases hs : zNode.state <;> simp [hs]
  · intro h
    rw [h]
    exact ⟨_, rfl⟩

/-- Witness for C1 on the v2 network X → Z → Y with Z unknown. -/
theorem c1_witness :
    ∃ s, exSeriesV2.checkTripleFlow ("X") ("Z") ("Y") =
      some (decide ((NodeState.unknown : NodeState) = NodeState.unknown), s) :=
  (c1_triple_flow_rule exSeriesV2 ("X") ("Z") ("Y") (by decide) (by decide) (by decide)
    ⟨("Z"), NodeState.unknown⟩ (by decide)).1 (Or.inl (by decide))

/-! ## C2 -/

/-- First-match characterization of v2 determine_relation_type. -/
theorem determineRelationType_spec (net : NetworkV2) (x z y : String) :
    (net.determineRelationType x z y = some RelationType.series ↔
      (hasDirectedEdge net.relations x z = true ∧ hasDirectedEdge net.relations z y = true)) ∧
    (net.determineRelationType x z y = some RelationType.divergente ↔
      (¬(hasDirectedEdge net.relations x z = true ∧ hasDirectedEdge net.relations z y = true) ∧
        hasDirectedEdge net.relations z x = true ∧ hasDirectedEdge net.relations z y = true)) ∧
    (net.determineRelationType x z y = some RelationType.convergente ↔
      (¬(hasDirectedEdge net.relations x z = true ∧ hasDirectedEdge net.relations z y = true) ∧
       ¬(hasDirectedEdge net.relations z x = true ∧ hasDirectedEdge net.relations z y = true) ∧
        hasDirectedEdge net.relations x z = true ∧ hasDirectedEdge net.relations y z = true)) ∧
    (net.determineRelationType x z y = none ↔
      (¬(hasDirectedEdge net.relations x z = true ∧ hasDirectedEdge net.relations z y = true) ∧
       ¬(hasDirectedEdge net.relations z x = true ∧ hasDirectedEdge net.relations z y = true) ∧
       ¬(hasDirectedEdge net.relations x z = true ∧ hasDirectedEdge net.relations y z = true))) := by
  unfold NetworkV2.determineRelationType
  cases h1 : hasDirectedEdge net.relations x z <;>
    cases h2 : hasDirectedEdge net.relations z x <;>
      cases h3 : hasDirectedEdge net.relations z y <;>
        cases h4 : hasDirectedEdge net.relations y z <;>
          simp

/-- First-match characterization of the per-triplet test of tp.py
detecter_relations_triplet. -/
theorem detecterTriplet_spec (rels : List (String × String)) (a b c : String) :
    ((rels.contains (a, b) = true ∧ rels.contains (b, c) = true) →
      detecterTriplet rels a b c =
        some (("[Serie] ") ++ a ++ (" → ") ++ b ++ (" → ") ++ c)) ∧
    ((¬(rels.contains (a, b) = true ∧ rels.contains (b, c) = true) ∧
        rels.contains (b, a) = true ∧ rels.contains (b, c) = true) →
      detecterTriplet rels a b c =
        some (("[Divergente] ") ++ a ++ (" ← ") ++ b ++ (" → ") ++ c)) ∧
    ((¬(rels.contains (a, b) = true ∧ rels.contains (b, c) = true) ∧
      ¬(rels.contains (b, a) = true ∧ rels.contains (b, c) = true) ∧
        rels.contains (a, b) = true ∧ rels.contains (c, b) = true) →
      detecterTriplet rels a b c =
        some (("[Convergente] ") ++ a ++ (" → ") ++ b ++ (" ← ") ++ c)) ∧
    ((¬(rels.contains (a, b) = true ∧ rels.contains (b, c) = true) ∧
      ¬(rels.contains (b, a) = true ∧ rels.contains (b, c) = true) ∧
      ¬(rels.contains (a, b) = true ∧ rels.contains (c, b) = true)) →
      detecterTriplet rels a b c = none) := by
  unfold detecterTriplet
  cases g1 : rels.contains (a, b) <;>
    cases g2 : rels.contains (b, c) <;>
      cases g3 : rels.contains (b, a) <;>
        cases g4 : rels.contains (c, b) <;>
          simp

/-- C2: for pairwise-distinct names, classification tests the patterns in
the fixed order SERIES, then DIVERGENT, then CONVERGENT over the current
edge set, returns the first pattern whose edge predicates hold and NONE
when none holds — in v2 determine_relation_type (as an exact
characterization of each outcome, valid also when several patterns hold
simultaneously) and in the per-triplet test of tp.py
detecter_relations_triplet. -/
theorem c2_classification_order (net : NetworkV2) (x z y : String)
    (_hxz : x ≠ z) (_hzy : z ≠ y) (_hxy : x ≠ y)
    (rels : List (String × String)) (a b c : String)
    (_hab : a ≠ b) (_hbc : b ≠ c) (_hac : a ≠ c) :
    ((net.determineRelationType x z y = some RelationType.series ↔
      (hasDirectedEdge net.relations x z = true ∧ hasDirectedEdge net.relations z y = true)) ∧
    (net.determineRelationType x z y = some RelationType.divergente ↔
      (¬(hasDirectedEdge net.relations x z = true ∧ hasDirectedEdge net.relations z y = true) ∧
        hasDirectedEdge net.relations z x = true ∧ hasDirectedEdge net.relations z y = true)) ∧
    (net.determineRelationType x z y = some RelationType.convergente ↔
      (¬(hasDirectedEdge net.relations x z = true ∧ hasDirectedEdge net.relations z y = true) ∧
       ¬(hasDirectedEdge net.relations z x = true ∧ hasDirectedEdge net.relations z y = true) ∧
        hasDirectedEdge net.relations x z = true ∧ hasDirectedEdge net.relations y z = true)) ∧
    (net.determineRelationType x z y = none ↔
      (¬(hasDirectedEdge net.relations x z = true ∧ hasDirectedEdge net.relations z y = true) ∧
       ¬(hasDirectedEdge net.relations z x = true ∧ hasDirectedEdge net.relations z y = true) ∧
       ¬(hasDirectedEdge net.relations x z = true ∧ hasDirectedEdge net.relations y z = true)))) ∧
    (((rels.contains (a, b) = true ∧ rels.contains (b, c) = true) →
      detecterTriplet rels a b c =
        some (("[Serie] ") ++ a ++ (" → ") ++ b ++ (" → ") ++ c)) ∧
    ((¬(rels.contains (a, b) = true ∧ rels.contains (b, c) = true) ∧
        rels.contains (b, a) = true ∧ rels.contains (b, c) = true) →
      detecterTriplet rels a b c =
        some (("[Divergente] ") ++ a ++ (" ← ") ++ b ++ (" → ") ++ c)) ∧
    ((¬(rels.contains (a, b) = true ∧ rels.contains (b, c) = true) ∧
      ¬(rels.contains (b, a) = true ∧ rels.contains (b, c) = true) ∧
        rels.contains (a, b) = true ∧ rels.contains (c, b) = true) →
      detecterTriplet rels a b c =
        some (("[Convergente] ") ++ a ++ (" → ") ++ b ++ (" ← ") ++ c)) ∧
    ((¬(rels.contains (a, b) = true ∧ rels.contains (b, c) = true) ∧
      ¬(rels.contains (b, a) = true ∧ rels.contains (b, c) = true) ∧
      ¬(rels.contains (a, b) = true ∧ rels.contains (c, b) = true)) →
      detecterTriplet rels a b c = none)) :=
  ⟨determineRelationType_spec net x z y, detecterTriplet_spec rels a b c⟩

/-- Witness for C2: a pathological edge set satisfying both the SERIES and
the CONVERGENT predicates still classifies as SERIES (first match wins). -/
theorem c2_witness :
    let net := (exSeriesV2.addRelation ("Y") ("Z") Direction.forward NodeState.unknown
      NodeState.unknown)
    net.determineRelationType ("X") ("Z") ("Y") = some RelationType.series ∧
    detecterTriplet [(("X"), ("Z")), (("Z"), ("Y")), (("Y"), ("Z"))] ("X") ("Z") ("Y") =
      some (("[Serie] ") ++ ("X") ++ (" → ") ++ ("Z") ++ (" → ") ++ ("Y")) := by
  refine ⟨?_, ?_⟩
  · exact ((c2_classification_order _ ("X") ("Z") ("Y") (by decide) (by decide) (by decide)
      [] ("X") ("Z") ("Y") (by decide) (by decide) (by decide)).1.1).mpr (by decide)
  · exact ((c2_classification_order exSeriesV2 ("X") ("Z") ("Y") (by decide) (by decide)
      (by decide) [(("X"), ("Z")), (("Z"), ("Y")), (("Y"), ("Z"))] ("X") ("Z") ("Y")
      (by decide) (by decide) (by decide)).2.1) (by decide)

/-! ## C8 -/

/-- C8: requesting the analysis on a graph with zero relations yields the
distinguished insufficient-data result string (the embedding is a total
function, so no exception is possible). -/
theorem c8_insufficient_data (net : NetworkBC) (h : net.relations = []) :
    net.computeFinalPath = ("Error: At least one relation is required.") := by
  unfold NetworkBC.computeFinalPath
  rw [h]
  simp

/-- Witness for C8 on the empty network (Scenario E). -/
theorem c8_witness :
    NetworkBC.empty.relations = [] ∧
    NetworkBC.empty.computeFinalPath = ("Error: At least one relation is required.") :=
  ⟨rfl, c8_insufficient_data NetworkBC.empty rfl⟩

/-! ## C10 -/

/-- hasDirectedEdge reads only source and target names, so it is invariant
under changing direction tags. -/
theorem hasDirectedEdge_congr {rels1 rels2 : List Relation}
    (h : List.Forall₂ (fun r1 r2 => r1.source = r2.source ∧ r1.target = r2.target)
      rels1 rels2) (a b : String) :
    hasDirectedEdge rels1 a b = hasDirectedEdge rels2 a b := by
  induction h with
  | nil => rfl
  | cons h _ ih =>
      unfold hasDirectedEdge at *
      simp only [List.any_cons, h.1, h.2, ih]

/-- C10: two v2 networks with the same nodes whose relation lists agree up
to direction tags classify every triple identically and evaluate every
triple's flow identically — classification and flow never read a
relation's direction tag. -/
theorem c10_direction_irrelevant (net1 net2 : NetworkV2) (x z y : String)
    (hn : net1.nodes = net2.nodes)
    (hr : List.Forall₂ (fun r1 r2 => r1.source = r2.source ∧ r1.target = r2.target)
      net1.relations net2.relations) :
    net1.determineRelationType x z y = net2.determineRelationType x z y ∧
    net1.checkTripleFlow x z y = net2.checkTripleFlow x z y := by
  have hd : ∀ a b, hasDirectedEdge net1.relations a b = hasDirectedEdge net2.relations a b :=
    fun a b => hasDirectedEdge_congr hr a b
  have h1 : net1.determineRelationType x z y = net2.determineRelationType x z y := by
    unfold NetworkV2.determineRelationType
    rw [hd, hd, hd, hd]
  refine ⟨h1, ?_⟩
  unfold NetworkV2.checkTripleFlow
  rw [hn, h1]

/-- Witness for C10: the relation a → b stored with a FORWARD tag and the
one stored with a BACKWARD tag behave identically for classification and
flow. -/
theorem c10_witness :
    exForwardV2.determineRelationType ("a") ("b") ("c") =
      exBackV2.determineRelationType ("a") ("b") ("c") ∧
    exForwardV2.checkTripleFlow ("a") ("b") ("c") =
      exBackV2.checkTripleFlow ("a") ("b") ("c") :=
  c10_direction_irrelevant exForwardV2 exBackV2 ("a") ("b") ("c") (by decide)
    (List.Forall₂.cons ⟨by decide, by decide⟩ List.Forall₂.nil)

/-! ## C7 -/

/-- add_node (v2) is the identity when the name already exists. -/
theorem addNodeV2_of_some (net : NetworkV2) (nm : String) (st : NodeState)
    (h : (lookupNode net.nodes nm).isSome = true) : net.addNode nm st = net := by
  unfold NetworkV2.addNode
  simp [h]

/-- add_node (Bayesian_Causality) is the identity when the name exists. -/
theorem addNodeBC_of_some (net : NetworkBC) (nm : String) (st : NodeState)
    (h : (lookupNode net.nodes nm).isSome = true) : net.addNode nm st = net := by
  unfold NetworkBC.addNode
  simp [h]

/-- Registering a fresh name makes it retrievable with the given state. -/
theorem addNodeV2_lookup_fresh (net : NetworkV2) (nm : String) (st : NodeState)
    (h : lookupNode net.nodes nm = none) :
    lookupNode (net.addNode nm st).nodes nm = some ⟨nm, st⟩ := by
  unfold NetworkV2.addNode
  simp only [h, Option.isSome_none, Bool.false_eq_true, if_false]
  exact lookupNode_append_fresh _ _ _ h

/-- Registering a fresh name makes it retrievable with the given state. -/
theorem addNodeBC_lookup_fresh (net : NetworkBC) (nm : String) (st : NodeState)
    (h : lookupNode net.nodes nm = none) :
    lookupNode (net.addNode nm st).nodes nm = some ⟨nm, st⟩ := by
  unfold NetworkBC.addNode
  simp only [h, Option.isSome_none, Bool.false_eq_true, if_false]
  exact lookupNode_append_fresh _ _ _ h

/-- C7: add_node is idempotent in both variants — after add_node(name, s1)
on a network not containing the name, a second call add_node(name, s2)
leaves the network (hence the node mapping) completely unchanged, and the
node still carries state s1. -/
theorem c7_addNode_idempotent (net2 : NetworkV2) (netB : NetworkBC) (name : String)
    (s1 s2 : NodeState)
    (h2 : lookupNode net2.nodes name = none) (hB : lookupNode netB.nodes name = none) :
    ((net2.addNode name s1).addNode name s2 = net2.addNode name s1 ∧
      lookupNode ((net2.addNode name s1).addNode name s2).nodes name = some ⟨name, s1⟩) ∧
    ((netB.addNode name s1).addNode name s2 = netB.addNode name s1 ∧
      lookupNode ((netB.addNode name s1).addNode name s2).nodes name = some ⟨name, s1⟩) := by
  have k2 := addNodeV2_lookup_fresh net2 name s1 h2
  have kB := addNodeBC_lookup_fresh netB name s1 hB
  have e2 := addNodeV2_of_some (net2.addNode name s1) name s2 (by rw [k2]; rfl)
  have eB := addNodeBC_of_some (netB.addNode name s1) name s2 (by rw [kB]; rfl)
  exact ⟨⟨e2, by rw [e2]; exact k2⟩, ⟨eB, by rw [eB]; exact kB⟩⟩

/-- Witness for C7 on the empty networks with differing states. -/
theorem c7_witness :
    ((NetworkV2.empty.addNode ("n") NodeState.known).addNode ("n") NodeState.unknown =
        NetworkV2.empty.addNode ("n") NodeState.known ∧
      lookupNode ((NetworkV2.empty.addNode ("n") NodeState.known).addNode ("n")
        NodeState.unknown).nodes ("n") = some ⟨("n"), NodeState.known⟩) ∧
    ((NetworkBC.empty.addNode ("n") NodeState.known).addNode ("n") NodeState.unknown =
        NetworkBC.empty.addNode ("n") NodeState.known ∧
      lookupNode ((NetworkBC.empty.addNode ("n") NodeState.known).addNode ("n")
        NodeState.unknown).nodes ("n") = some ⟨("n"), NodeState.known⟩) :=
  c7_addNode_idempotent NetworkV2.empty NetworkBC.empty ("n") NodeState.known
    NodeState.unknown (by decide) (by decide)

/-! ## C6 -/

/-- C6 counterexample: add_relation("a", "b", BACKWARD) stores the relation
with source "a" and target "b" — not swapped — while the v2 adjacency
stores the opposite orientation b → a, so the relation list and the
adjacency do not agree on a canonical edge; classification consequently
sees an edge a → b and not b → a; and in Bayesian_Causality the BACKWARD
tag makes the relation invisible to the neighbor scan of has_cycle, so the
tag has a further runtime effect. -/
theorem c6_counterexample :
    exBackV2.relations.map (fun r => (r.source.name, r.target.name, r.direction)) =
      [(("a"), ("b"), Direction.backward)] ∧
    exBackV2.adjGet ("b") = [(("a"), Direction.backward)] ∧
    exBackV2.adjGet ("a") = [] ∧
    hasDirectedEdge exBackV2.relations ("a") ("b") = true ∧
    hasDirectedEdge exBackV2.relations ("b") ("a") = false ∧
    bcNeighbors exBackBC ("a") = [] ∧
    bcNeighbors exBackBC ("b") = [] ∧
    (("a") : String) ≠ ("b") := by
  decide

/-- add_node touches no relation list. -/
theorem addNodeV2_relations (net : NetworkV2) (nm : String) (st : NodeState) :
    (net.addNode nm st).relations = net.relations := by
  unfold NetworkV2.addNode
  split <;> rfl

/-- add_node touches no relation list. -/
theorem addNodeBC_relations (net : NetworkBC) (nm : String) (st : NodeState) :
    (net.addNode nm st).relations = net.relations := by
  unfold NetworkBC.addNode
  split <;> rfl

/-- Lookup inside an adjacency list after appending under key `k`. -/
theorem find?_adjAppend (adj : List (String × List (String × Direction))) (k : String)
    (v : String × Direction) :
    (adjAppend adj k v).find? (fun p => p.1 == k) =
      (adj.find? (fun p => p.1 == k)).map (fun p => (p.1, p.2 ++ [v])) := by
  induction adj with
  | nil => rfl
  | cons a l ih =>
      simp only [adjAppend, List.map_cons] at ih ⊢
      by_cases h : (a.1 == k) = true
      · rw [if_pos h]
        simp only [List.find?_cons, h]
        rfl
      · rw [if_neg h]
        simp only [List.find?_cons]
        rw [Bool.of_not_eq_true h]
        exact ih

/-- Appending under key `k` does not change lookups of other keys. -/
theorem find?_adjAppend_ne (adj : List (String × List (String × Direction)))
    (k q : String) (v : String × Direction) (h : q ≠ k) :
    (adjAppend adj k v).find? (fun p => p.1 == q) = adj.find? (fun p => p.1 == q) := by
  induction adj with
  | nil => rfl
  | cons a l ih =>
      simp only [adjAppend, List.map_cons] at ih ⊢
      by_cases hk : (a.1 == k) = true
      · rw [if_pos hk]
        have hq : (a.1 == q) = false := by
          rw [eq_of_beq hk]
          exact beq_eq_false_iff_ne.mpr (fun e => h e.symm)
        simp only [List.find?_cons, hq]
        exact ih
      · rw [if_neg hk]
        simp only [List.find?_cons]
        cases hq : (a.1 == q) with
        | true => rfl
        | false => exact ih

/-- add_node keeps the adjacency keys aligned with the node names. -/
theorem addNodeV2_keys (net : NetworkV2) (nm : String) (st : NodeState)
    (h : net.adjacency.map Prod.fst = net.nodes.map Node.name) :
    (net.addNode nm st).adjacency.map Prod.fst = (net.addNode nm st).nodes.map Node.name := by
  unfold NetworkV2.addNode
  cases hs : (lookupNode net.nodes nm).isSome <;> simp [h]

/-- A registered name has an adjacency entry in a key-aligned network. -/
theorem adjKey_present (net : NetworkV2) (nm : String)
    (h : net.adjacency.map Prod.fst = net.nodes.map Node.name)
    (hn : (lookupNode net.nodes nm).isSome = true) :
    ∃ e, net.adjacency.find? (fun p => p.1 == nm) = some e := by
  obtain ⟨nd, hnd⟩ := Option.isSome_iff_exists.mp hn
  have hname := lookupNode_name hnd
  have hmem : nm ∈ net.nodes.map Node.name := by
    exact hname ▸ List.mem_map_of_mem Node.name (lookupNode_mem hnd)
  rw [← h] at hmem
  obtain ⟨e, he, hfst⟩ := List.mem_map.mp hmem
  have : (net.adjacency.find? (fun p => p.1 == nm)).isSome := by
    rw [List.find?_isSome]
    exact ⟨e, he, by simp [hfst]⟩
  exact Option.isSome_iff_exists.mp this

/-- Adding a BACKWARD relation changes no neighbor list of the
Bayesian_Causality dfs: the tag suppresses the edge for has_cycle. -/
theorem bcNeighbors_backward_invisible (net : NetworkBC) (s t : String)
    (ss ts : NodeState) (nm : String) :
    bcNeighbors (net.addRelation s t Direction.backward ss ts) nm = bcNeighbors net nm := by
  unfold NetworkBC.addRelation bcNeighbors
  simp [addNodeBC_relations, List.filterMap_append]

/-- C6 amended: add_relation stores the relation exactly as passed — source
first, target second, direction tag retained, with no swap for BACKWARD
(the GUIs swap before calling) — in both variants; in v2 only the
adjacency entry is canonicalized (a BACKWARD call appends (source, tag)
under the target and nothing under the source), so the relation list and
the adjacency carry opposite orientations for BACKWARD input; and the tag
keeps a runtime effect, e.g. a BACKWARD relation adds no has_cycle edge in
Bayesian_Causality. -/
theorem c6_amended (net : NetworkV2) (netB : NetworkBC) (s t : String) (d : Direction)
    (ss ts : NodeState) (hst : s ≠ t)
    (hkeys : net.adjacency.map Prod.fst = net.nodes.map Node.name) :
    ((net.addRelation s t d ss ts).relations.map
        (fun r => (r.source.name, r.target.name, r.direction)) =
      net.relations.map (fun r => (r.source.name, r.target.name, r.direction)) ++
        [(s, t, d)]) ∧
    ((netB.addRelation s t d ss ts).relations.map
        (fun r => (r.source.name, r.target.name, r.direction)) =
      netB.relations.map (fun r => (r.source.name, r.target.name, r.direction)) ++
        [(s, t, d)]) ∧
    (d = Direction.backward →
      (net.addRelation s t d ss ts).adjGet t =
        ((net.addNode s ss).addNode t ts).adjGet t ++ [(s, d)] ∧
      (net.addRelation s t d ss ts).adjGet s =
        ((net.addNode s ss).addNode t ts).adjGet s) ∧
    (∀ nm, bcNeighbors (netB.addRelation s t Direction.backward ss ts) nm =
      bcNeighbors netB nm) := by
  obtain ⟨snd1, hs1, hsn1⟩ := addNodeV2_lookup_self net s ss
  have hs2 := addNodeV2_lookup_mono (net.addNode s ss) t s ts hs1
  obtain ⟨tnd2, ht2, htn2⟩ := addNodeV2_lookup_self (net.addNode s ss) t ts
  obtain ⟨sndB1, hsB1, hsnB1⟩ := addNodeBC_lookup_self netB s ss
  have hsB2 := addNodeBC_lookup_mono (netB.addNode s ss) t s ts hsB1
  obtain ⟨tndB2, htB2, htnB2⟩ := addNodeBC_lookup_self (netB.addNode s ss) t ts
  refine ⟨?_, ?_, ?_, fun nm => bcNeighbors_backward_invisible netB s t ss ts nm⟩
  · simp only [NetworkV2.addRelation, hs2, ht2, Option.getD_some, addNodeV2_relations,
      List.map_append, List.map_cons, List.map_nil, hsn1, htn2]
  · simp only [NetworkBC.addRelation, hsB2, htB2, Option.getD_some, addNodeBC_relations,
      List.map_append, List.map_cons, List.map_nil, hsnB1, htnB2]
  · intro hd
    subst hd
    have hkeys2 : ((net.addNode s ss).addNode t ts).adjacency.map Prod.fst =
        ((net.addNode s ss).addNode t ts).nodes.map Node.name :=
      addNodeV2_keys _ t ts (addNodeV2_keys net s ss hkeys)
    obtain ⟨e, he⟩ := adjKey_present ((net.addNode s ss).addNode t ts) t hkeys2
      (by rw [ht2]; rfl)
    have hne : ¬ (Direction.backward = Direction.forward) := by decide
    constructor
    · simp only [NetworkV2.addRelation, NetworkV2.adjGet, if_neg hne]
      rw [find?_adjAppend, he]
      rfl
    · simp only [NetworkV2.addRelation, NetworkV2.adjGet, if_neg hne]
      rw [find?_adjAppend_ne _ _ _ _ hst]

/-- Witness for C6 amended, instantiated at add_relation("a","b",BACKWARD)
on the empty networks. -/
theorem c6_amended_witness :
    exBackV2.relations.map (fun r => (r.source.name, r.target.name, r.direction)) =
      NetworkV2.empty.relations.map (fun r => (r.source.name, r.target.name, r.direction))
        ++ [(("a"), ("b"), Direction.backward)] ∧
    exBackV2.adjGet ("b") =
      ((NetworkV2.empty.addNode ("a") NodeState.unknown).addNode ("b")
        NodeState.unknown).adjGet ("b") ++ [(("a"), Direction.backward)] ∧
    bcNeighbors exBackBC ("a") = bcNeighbors NetworkBC.empty ("a") := by
  have h := c6_amended NetworkV2.empty NetworkBC.empty ("a") ("b") Direction.backward
    NodeState.unknown NodeState.unknown (by decide) (by decide)
  exact ⟨h.1, (h.2.2.1 rfl).1, h.2.2.2 ("a")⟩

/-! ## C5 -/

/-- C5: when cycle detection finds a cycle (and the insufficient-data guard
passes), the whole analysis result is exactly the cycle report — in
Bayesian_Causality compute_final_path the returned string is only the
cycle message, and in tp.py circulation_information the displayed lines
are only the cycle message; no triple, flow or path output is produced. -/
theorem c5_cycle_short_circuits (net : NetworkBC) (h1 : net.relations ≠ [])
    (h2 : net.hasCycle ≠ [])
    (vars : List String) (rels : List (String × String)) (etats : List (String × String))
    (start : String) (h3 : 3 ≤ vars.length) (h4 : tpHasCycle vars rels ≠ [])
    (h5 : start ≠ ("")) :
    net.computeFinalPath = ("Cycle détecté : ") ++ String.intercalate (",") net.hasCycle ∧
    circulationMessages vars rels etats start =
      [("Cycle détecté : ") ++ String.intercalate (" → ") (tpHasCycle vars rels)] := by
  constructor
  · unfold NetworkBC.computeFinalPath
    have hl : ¬ net.relations.length < 1 := by
      cases h : net.relations with
      | nil => exact absurd h h1
      | cons a l => simp [h]
    simp [hl, h2]
  · unfold circulationMessages
    have h3' : ¬ vars.length < 3 := by omega
    have h5' : (start == ("")) = false := by
      simp [h5]
    simp [h3', h5', h4]

/-- Witness for C5 on the Scenario D cycle A → B → C → A in both variants. -/
theorem c5_witness :
    exCycleBC.relations ≠ [] ∧ exCycleBC.hasCycle ≠ [] ∧
    3 ≤ tpVarsCyc.length ∧ tpHasCycle tpVarsCyc tpRelsCyc ≠ [] ∧
    exCycleBC.computeFinalPath =
      ("Cycle détecté : ") ++ String.intercalate (",") exCycleBC.hasCycle ∧
    circulationMessages tpVarsCyc tpRelsCyc [] ("A") =
      [("Cycle détecté : ") ++ String.intercalate (" → ") (tpHasCycle tpVarsCyc tpRelsCyc)] := by
  have h := c5_cycle_short_circuits exCycleBC (by decide) (by decide) tpVarsCyc tpRelsCyc
    [] ("A") (by decide) (by decide) (by decide)
  exact ⟨by decide, by decide, by decide, by decide, h.1, h.2⟩

/-! ## C9 -/

/-- Invariant of the get_all_paths dfs: starting from a duplicate-free
stack `path` of S-names not containing the S-name `node`, every recorded
path has duplicate-free content apart from a possible cycle-closing repeat
of its head, and its length is bounded by the node count and by the
max_length guard. -/
theorem dfsPaths_spec (net : NetworkV2) (maxLength : Nat) (S : List String)
    (hadj : ∀ a ∈ S, ∀ p ∈ net.adjGet a, p.1 ∈ S) :
    ∀ fuel node path length, node ∈ S → node ∉ path → path.Nodup →
      (∀ x ∈ path, x ∈ S) → path.length = length →
      ∀ q ∈ dfsPaths net maxLength fuel node path length,
        q.dropLast.Nodup ∧ (q.Nodup ∨ q.getLast? = q.head?) ∧
        q.length ≤ S.length + 1 ∧ q.length ≤ maxLength + 2 := by
  intro fuel
  induction fuel with
  | zero =>
      intro node path length _ _ _ _ _ q hq
      simp [dfsPaths] at hq
  | succ fuel ih =>
      intro node path length hnode hnp hnd hsub hlen q hq
      simp only [dfsPaths] at hq
      by_cases hguard : maxLength < length
      · simp [hguard] at hq
      · simp only [if_neg hguard] at hq
        have hnd' : (path ++ [node]).Nodup := by
          simp [List.nodup_append, hnd, hnp]
        have hsub' : ∀ x ∈ path ++ [node], x ∈ S := by
          intro x hx
          rcases List.mem_append.mp hx with hx | hx
          · exact hsub x hx
          · simp at hx
            exact hx ▸ hnode
        have hlen' : (path ++ [node]).length = length + 1 := by
          simp [hlen]
        have hlenS : (path ++ [node]).length ≤ S.length :=
          (hnd'.subperm hsub').length_le
        have hbound : length ≤ maxLength := Nat.le_of_not_lt hguard
        have hne : path ++ [node] ≠ [] := by simp
        rcases List.mem_append.mp hq with hq | hq
        · have hqe : q = path ++ [node] := by
            by_cases h1 : 1 < (path ++ [node]).length
            · rw [if_pos h1] at hq
              exact List.mem_singleton.mp hq
            · rw [if_neg h1] at hq
              exact absurd hq (List.not_mem_nil q)
          subst hqe
          exact ⟨(List.dropLast_sublist _).nodup hnd', Or.inl hnd',
            le_trans hlenS (Nat.le_succ _), by omega⟩
        · obtain ⟨nb, hnb, hq⟩ := List.mem_flatMap.mp hq
          by_cases hmem : nb.1 ∈ path ++ [node]
          · rw [if_pos hmem] at hq
            by_cases hcyc : (path ++ [node]).head? = some nb.1 ∧ 3 ≤ (path ++ [node]).length
            · rw [if_pos hcyc] at hq
              have hqe : q = path ++ [node] ++ [nb.1] := List.mem_singleton.mp hq
              subst hqe
              refine ⟨by rw [List.dropLast_concat]; exact hnd', Or.inr ?_, ?_, ?_⟩
              · rw [List.getLast?_concat]
                obtain ⟨h0, t0, he⟩ := List.exists_cons_of_ne_nil hne
                rw [he] at hcyc ⊢
                simp [hcyc.1.symm]
              · simp only [List.length_append, List.length_cons, List.length_nil]
                simp only [List.length_append, List.length_cons, List.length_nil] at hlenS
                omega
              · simp only [List.length_append, List.length_cons, List.length_nil]
                simp only [List.length_append, List.length_cons, List.length_nil] at hlen'
                omega
            · rw [if_neg hcyc] at hq
              exact absurd hq (List.not_mem_nil q)
          · rw [if_neg hmem] at hq
            exact ih nb.1 (path ++ [node]) (length + 1) (hadj node hnode nb hnb) hmem
              hnd' hsub' hlen' q hq

/-- C9: get_all_paths terminates on every graph and start node — the
embedding is total, the source's own max_length guard bounding recursion
depth — and the dfs never pushes a node already on the current path except
to record a cycle closing at the path's own start: every returned path is
duplicate-free apart from a possible final repeat of its head, and its
length (the recursion depth that produced it, plus the closing node) is
bounded both by the number of node names plus one and by the max_length
guard. -/
theorem c9_paths_bounded (net : NetworkV2) (start : String) (maxLength : Nat)
    (S : List String) (hstart : start ∈ S)
    (hadj : ∀ a ∈ S, ∀ p ∈ net.adjGet a, p.1 ∈ S) :
    ∀ q ∈ net.getAllPaths start maxLength,
      q.dropLast.Nodup ∧ (q.Nodup ∨ q.getLast? = q.head?) ∧
      q.length ≤ S.length + 1 ∧ q.length ≤ maxLength + 2 := by
  intro q hq
  exact dfsPaths_spec net maxLength S hadj (maxLength + 1) start [] 0 hstart
    (by simp) List.nodup_nil (by simp) rfl q hq

/-- Witness for C9 on the path X → Z → Y of the series network. -/
theorem c9_witness :
    ((["X", "Z", "Y"] : List String)).dropLast.Nodup ∧
    ((["X", "Z", "Y"] : List String).Nodup ∨
      (["X", "Z", "Y"] : List String).getLast? = (["X", "Z", "Y"] : List String).head?) ∧
    (["X", "Z", "Y"] : List String).length ≤ [("X"), ("Z"), ("Y")].length + 1 ∧
    (["X", "Z", "Y"] : List String).length ≤ 100 + 2 :=
  c9_paths_bounded exSeriesV2 ("X") 100 [("X"), ("Z"), ("Y")] (by decide) (by decide)
    [("X"), ("Z"), ("Y")] (by decide)

/-! ## C4 -/

/-- C4 counterexample: in the Scenario C graph (relations X → Z and Y → Z,
Z connu, start X) the enumerated path [X, Z, Y] has no blocking triple —
its single overlapping triple passes, and the phase-two blocking test is
false — yet the recorded result does not contain the whole path, only its
truncation [X, Z]: the "no triple blocks ⟹ whole path recorded" part of
the claim is false (the truncation here comes from the no-outgoing-relation
check on Z). -/
theorem c4_counterexample :
    passeTriples tpRelsC tpEtatsC [("X"), ("Z"), ("Y")] = true ∧
    tripleBlocksTp tpRelsC tpEtatsC ("X") ("Z") ("Y") = false ∧
    [("X"), ("Z"), ("Y")] ∈ cheminsValides tpVarsXZY tpRelsC tpEtatsC ("X") ∧
    [("X"), ("Z"), ("Y")] ∉ cheminsFinaux tpVarsXZY tpRelsC tpEtatsC ("X") ∧
    cheminsFinaux tpVarsXZY tpRelsC tpEtatsC ("X") = [[("X"), ("Z")]] := by
  decide

/-- The truncation loop leaves the path whole when no stop condition holds
from position i on. -/
theorem tronquerAux_no_stop (vars : List String) (rels : List (String × String))
    (etats : List (String × String)) (p : List String) :
    ∀ fuel i, (∀ j, i ≤ j → j + 1 < p.length → tronquerStop vars rels etats p j = false) →
      tronquerAux vars rels etats p fuel i = p := by
  intro fuel
  induction fuel with
  | zero => intro i _; rfl
  | succ fuel ih =>
      intro i h
      unfold tronquerAux
      by_cases hi : i + 1 < p.length
      · rw [if_pos hi, h i (le_refl i) hi, if_neg (by simp)]
        exact ih (i + 1) (fun j hj => h j (by omega))
      · rw [if_neg hi]

/-- The truncation loop truncates right after position i0 + 1 when i0 is
the first position whose stop condition holds. -/
theorem tronquerAux_first_stop (vars : List String) (rels : List (String × String))
    (etats : List (String × String)) (p : List String) :
    ∀ fuel i i0, i ≤ i0 → i0 - i < fuel →
      (∀ j, i ≤ j → j < i0 → tronquerStop vars rels etats p j = false) →
      i0 + 1 < p.length → tronquerStop vars rels etats p i0 = true →
      tronquerAux vars rels etats p fuel i = p.take (i0 + 2) := by
  intro fuel
  induction fuel with
  | zero => intro i i0 _ h; omega
  | succ fuel ih =>
      intro i i0 hle hfuel hbefore hlen hstop
      unfold tronquerAux
      have hi : i + 1 < p.length := by omega
      rw [if_pos hi]
      by_cases heq : i = i0
      · subst heq
        rw [if_pos hstop]
      · have hlt : i < i0 := by omega
        rw [hbefore i (le_refl i) hlt, if_neg (by simp)]
        exact ih (i + 1) i0 (by omega) (by omega) (fun j hj => hbefore j (by omega)) hlen hstop

/-- C4 amended: paths are decomposed into overlapping triples evaluated
left to right, but an enumerated path containing any blocking triple is
discarded entirely in phase one rather than truncated (every path that
reaches the recording phase is blocking-free; truncated prefixes appear in
the output only because shorter paths are enumerated separately, which for
Scenario B makes the recorded set exactly the path X → Z); a surviving
path is then truncated right after position i + 1 for the first position i
whose stop condition holds (blocking triple at i, no outgoing relation
from p[i+1], or no further triplet from p[i+1]), and is recorded whole
only when no stop condition holds — so even a path with no blocking triple
may be truncated. -/
theorem c4_amended (vars : List String) (rels : List (String × String))
    (etats : List (String × String)) (start : String) :
    (∀ p, p ∈ cheminsValides vars rels etats start → passeTriples rels etats p = true) ∧
    (∀ p, (∀ j, j + 1 < p.length → tronquerStop vars rels etats p j = false) →
      tronquer vars rels etats p = p) ∧
    (∀ p i0, (∀ j, j < i0 → tronquerStop vars rels etats p j = false) →
      i0 + 1 < p.length → tronquerStop vars rels etats p i0 = true →
      tronquer vars rels etats p = p.take (i0 + 2)) ∧
    cheminsFinaux tpVarsXZY tpRelsB tpEtatsB ("X") = [[("X"), ("Z")]] := by
  refine ⟨?_, ?_, ?_, by decide⟩
  · intro p hp
    unfold cheminsValides at hp
    obtain ⟨target, _, hp⟩ := List.mem_flatMap.mp hp
    by_cases ht : (target == start) = true
    · rw [if_pos ht] at hp
      exact absurd hp (List.not_mem_nil p)
    · rw [if_neg ht] at hp
      have := (List.mem_filter.mp hp).2
      exact (Bool.and_eq_true _ _).mp this |>.2
  · intro p h
    exact tronquerAux_no_stop vars rels etats p p.length 0 (fun j _ hj => h j hj)
  · intro p i0 hbefore hlen hstop
    exact tronquerAux_first_stop vars rels etats p p.length 0 i0 (Nat.zero_le i0)
      (by omega) (fun j _ hj => hbefore j hj) hlen hstop

/-- Witness for C4 amended on Scenario B: the surviving path [X, Z] is
blocking-free, the enumerated-then-discarded path [X, Z, Y] would truncate
to [X, Z] at its blocking triple, and the recorded set is exactly [X, Z]. -/
theorem c4_amended_witness :
    passeTriples tpRelsB tpEtatsB [("X"), ("Z")] = true ∧
    tronquer tpVarsXZY tpRelsB tpEtatsB [("X"), ("Z"), ("Y")] =
      ([("X"), ("Z"), ("Y")] : List String).take 2 ∧
    cheminsFinaux tpVarsXZY tpRelsB tpEtatsB ("X") = [[("X"), ("Z")]] := by
  have h := c4_amended tpVarsXZY tpRelsB tpEtatsB ("X")
  exact ⟨h.1 [("X"), ("Z")] (by decide),
    h.2.2.1 [("X"), ("Z"), ("Y")] 0 (fun j hj => by omega) (by decide) (by decide),
    h.2.2.2⟩

/-! ## C3: basic lemmas about the has_cycle dfs -/

/-- The ghost field changes nothing: erasing it from the instrumented run
yields the plain run. -/
theorem bcRunI_erase (net : NetworkBC) :
    ∀ fuel task acc,
      bcRun net fuel task acc.erase =
        ((bcRunI net fuel task acc).1, (bcRunI net fuel task acc).2.erase) := by
  intro fuel
  induction fuel with
  | zero => intro task acc; rfl
  | succ fuel ih =>
      intro task acc
      cases task with
      | visit node rs =>
          simp only [bcRun, bcRunI, BcAccI.erase]
          exact ih (BcTask.loop node (node :: rs) (bcNeighbors net node))
            { acc with visited := node :: acc.visited }
      | loop node rs' nbs =>
          cases nbs with
          | nil => rfl
          | cons nb rest =>
              simp only [bcRun, bcRunI, BcAccI.erase]
              by_cases hv : nb ∈ acc.visited
              · rw [if_pos hv, if_pos hv]
                by_cases hback : nb ∈ rs' ∧ acc.cycle = []
                · rw [if_pos hback, if_pos hback]
                · rw [if_neg hback, if_neg hback]
                  exact ih (BcTask.loop node rs' rest) acc
              · rw [if_neg hv, if_neg hv]
                have heq := ih (BcTask.visit nb rs')
                  { acc with parent := acc.parent ++ [(nb, some node)] }
                simp only [BcAccI.erase] at heq
                rw [heq]
                rcases h : bcRunI net fuel (BcTask.visit nb rs')
                    { acc with parent := acc.parent ++ [(nb, some node)] } with ⟨b, acc''⟩
                cases b
                · exact ih (BcTask.loop node rs' rest) acc''
                · rfl

/-- The outer loops agree after erasing the ghost field. -/
theorem bcHasCycleGoI_erase (net : NetworkBC) :
    ∀ ns acc, bcHasCycleGo net ns acc.erase = (bcHasCycleGoI net ns acc).1 := by
  intro ns
  induction ns with
  | nil => intro acc; rfl
  | cons n rest ih =>
      intro acc
      simp only [bcHasCycleGo, bcHasCycleGoI, BcAccI.erase]
      by_cases hv : n.name ∈ acc.visited
      · rw [if_pos hv, if_pos hv]
        exact ih acc
      · rw [if_neg hv, if_neg hv]
        have heq := bcRunI_erase net (bcFuel net) (BcTask.visit n.name [])
          { acc with parent := acc.parent ++ [(n.name, none)] }
        simp only [BcAccI.erase] at heq
        rw [heq]
        rcases h : bcRunI net (bcFuel net) (BcTask.visit n.name [])
            { acc with parent := acc.parent ++ [(n.name, none)] } with ⟨b, acc''⟩
        cases b
        · exact ih acc''
        · rfl

/-- has_cycle through the instrumented run. -/
theorem hasCycle_eq_instrumented (net : NetworkBC) :
    net.hasCycle = (bcHasCycleGoI net net.nodes ⟨[], [], [], []⟩).1 :=
  bcHasCycleGoI_erase net net.nodes ⟨[], [], [], []⟩

/-- Membership in the dfs neighbor list is exactly forward-edge existence. -/
theorem bcNeighbors_iff (net : NetworkBC) (node w : String) :
    w ∈ bcNeighbors net node ↔ bcEdge net node w = true := by
  unfold bcNeighbors bcEdge
  rw [List.mem_filterMap, List.any_eq_true]
  constructor
  · rintro ⟨r, hr, he⟩
    by_cases hc : (r.source.name == node && (r.direction == Direction.forward)) = true
    · rw [if_pos hc] at he
      have ht := Option.some.inj he
      simp only [Bool.and_eq_true, beq_iff_eq] at hc
      exact ⟨r, hr, by simp [hc.1, hc.2, ht]⟩
    · rw [if_neg hc] at he
      cases he
  · rintro ⟨r, hr, hc⟩
    simp only [Bool.and_eq_true, beq_iff_eq] at hc
    refine ⟨r, hr, ?_⟩
    rw [if_pos (by simp [hc.1.1, hc.2])]
    simp [hc.1.2]

/-- Neighbors are relation targets, hence universe members. -/
theorem bcNeighbors_mem_universe (net : NetworkBC) (node w : String)
    (h : w ∈ bcNeighbors net node) : w ∈ bcUniverse net := by
  unfold bcNeighbors at h
  obtain ⟨r, hr, he⟩ := List.mem_filterMap.mp h
  have : r.target.name = w := by
    by_cases hc : (r.source.name == node && (r.direction == Direction.forward)) = true
    · rw [if_pos hc] at he
      exact Option.some.inj he
    · rw [if_neg hc] at he
      cases he
  unfold bcUniverse
  exact List.mem_append.mpr (Or.inr (this ▸ List.mem_map_of_mem _ hr))

/-- Parent lookups are stable under appending new entries. -/
theorem lookupParent_append (parent more : List (String × Option String)) (x : String)
    (o : Option String) (h : lookupParent parent x = some o) :
    lookupParent (parent ++ more) x = some o := by
  unfold lookupParent at *
  rcases hf : parent.find? (fun p => p.1 == x) with _ | e
  · rw [hf] at h
    cases h
  · rw [hf] at h
    rw [List.find?_append, hf]
    exact h

/-- A key absent from the parent map gets the appended entry's value. -/
theorem lookupParent_append_fresh (parent : List (String × Option String)) (x : String)
    (o : Option String) (h : ∀ pr ∈ parent, pr.1 ≠ x) :
    lookupParent (parent ++ [(x, o)]) x = some o := by
  unfold lookupParent
  rw [List.find?_append]
  have hnone : parent.find? (fun p => p.1 == x) = none := by
    rw [List.find?_eq_none]
    intro pr hpr
    simp [h pr hpr]
  rw [hnone]
  simp

/-- Complete parent chains are stable under appending parent entries. -/
theorem parentChain_append (parent more : List (String × Option String)) :
    ∀ l, parentChain parent l → parentChain (parent ++ more) l := by
  intro l
  induction l with
  | nil => intro h; trivial
  | cons x rest ih =>
      cases rest with
      | nil => exact fun h => lookupParent_append _ _ _ _ h
      | cons y rest' =>
          rintro ⟨h1, h2⟩
          exact ⟨lookupParent_append _ _ _ _ h1, ih h2⟩

/-- Every element of a complete parent chain has a parent entry. -/
theorem parentChain_isSome (parent : List (String × Option String)) :
    ∀ l, parentChain parent l → ∀ x ∈ l, ∃ o, lookupParent parent x = some o := by
  intro l
  induction l with
  | nil => intro _ x hx; cases hx
  | cons a rest ih =>
      cases rest with
      | nil =>
          intro h x hx
          rw [List.mem_singleton] at hx
          exact ⟨none, hx ▸ h⟩
      | cons y rest' =>
          rintro ⟨h1, h2⟩ x hx
          rcases List.mem_cons.mp hx with hx | hx
          · exact ⟨some y, hx ▸ h1⟩
          · exact ih h2 x hx

/-- A complete chain is in particular linked. -/
theorem parentChain_linked (parent : List (String × Option String)) :
    ∀ l, parentChain parent l → chainLinked parent l := by
  intro l
  induction l with
  | nil => intro _; trivial
  | cons a rest ih =>
      cases rest with
      | nil => intro _; trivial
      | cons y rest' =>
          rintro ⟨h1, h2⟩
          exact ⟨h1, ih h2⟩

/-- Linkedness restricts to initial segments cut after any element. -/
theorem chainLinked_take (parent : List (String × Option String)) :
    ∀ l x rest, chainLinked parent (l ++ x :: rest) → chainLinked parent (l ++ [x]) := by
  intro l
  induction l with
  | nil => intro x rest _; trivial
  | cons a l' ih =>
      intro x rest h
      cases l' with
      | nil =>
          obtain ⟨h1, _⟩ := h
          exact ⟨h1, trivial⟩
      | cons b l'' =>
          obtain ⟨h1, h2⟩ := h
          exact ⟨h1, ih x rest h2⟩

/-! ## C3: cycle reconstruction is a genuine cycle -/

/-- A successful parent lookup comes from an actual entry. -/
theorem lookupParent_some_entry {parent : List (String × Option String)} {x : String}
    {o : Option String} (h : lookupParent parent x = some o) :
    ∃ pr ∈ parent, pr.1 = x ∧ pr.2 = o := by
  unfold lookupParent at h
  rcases hf : parent.find? (fun p => p.1 == x) with _ | e
  · rw [hf] at h
    cases h
  · rw [hf] at h
    refine ⟨e, List.mem_of_find?_eq_some hf, ?_, Option.some.inj h⟩
    have := List.find?_some hf
    exact eq_of_beq (by simpa using this)

/-- A recorded parent link is a forward edge parent → child. -/
theorem lookupParent_edge {net : NetworkBC} {parent : List (String × Option String)}
    {x y : String} (h : lookupParent parent x = some (some y))
    (hPE : ParentEdges net parent) : bcEdge net y x = true := by
  obtain ⟨pr, hm, h1, h2⟩ := lookupParent_some_entry h
  have := hPE pr hm y (by rw [h2])
  rwa [h1] at this

/-- Extending a forward walk by one edge at its end. -/
theorem isEdgePath_concat (net : NetworkBC) :
    ∀ l a b, isEdgePath net a l = true → bcEdge net (l.getLastD a) b = true →
      isEdgePath net a (l ++ [b]) = true := by
  intro l
  induction l with
  | nil =>
      intro a b _ he
      simp only [List.nil_append, isEdgePath]
      simp only [List.getLastD_nil] at he
      simp [he]
  | cons c l' ih =>
      intro a b hp he
      simp only [isEdgePath, Bool.and_eq_true] at hp
      simp only [List.cons_append, isEdgePath, Bool.and_eq_true]
      refine ⟨hp.1, ih c b hp.2 ?_⟩
      rw [List.getLastD_cons] at he
      exact he

/-- Climbing a linked chain from its deepest element back to its top yields
a forward walk (parent entries are edges parent → child). -/
theorem chain_to_path (net : NetworkBC) (parent : List (String × Option String))
    (hPE : ParentEdges net parent) :
    ∀ c x nb, chainLinked parent (x :: (c ++ [nb])) →
      isEdgePath net nb (c.reverse ++ [x]) = true := by
  intro c
  induction c with
  | nil =>
      intro x nb h
      obtain ⟨h1, _⟩ := h
      have he := lookupParent_edge h1 hPE
      simp [isEdgePath, he]
  | cons y c' ih =>
      intro x nb h
      obtain ⟨h1, h2⟩ := h
      have hup := ih y nb h2
      have he := lookupParent_edge h1 hPE
      rw [List.reverse_cons, List.append_assoc]
      have := isEdgePath_concat net (c'.reverse ++ [y]) nb x hup
        (by rw [List.getLastD_concat]; exact he)
      simpa using this

/-- The while-loop walk follows the chain from its top down to the first
occurrence of the target, collecting the traversed elements. -/
theorem walkParents_spec (parent : List (String × Option String)) :
    ∀ c x nb fuel, parentChain parent (x :: c) → nb ∈ x :: c → c.length < fuel →
      (nb = x ∧ walkParents parent fuel x nb = []) ∨
      (∃ c₁ c₂, c = c₁ ++ nb :: c₂ ∧ nb ∉ c₁ ∧ nb ≠ x ∧
        walkParents parent fuel x nb = c₁ ++ [nb]) := by
  intro c
  induction c with
  | nil =>
      intro x nb fuel _ hm hf
      rw [List.mem_singleton] at hm
      subst hm
      rcases fuel with _ | fuel
      · omega
      · exact Or.inl ⟨rfl, by simp [walkParents]⟩
  | cons y c' ih =>
      intro x nb fuel hchain hm hf
      obtain ⟨h1, h2⟩ := hchain
      rcases fuel with _ | fuel
      · omega
      by_cases hx : nb = x
      · exact Or.inl ⟨hx, by simp [walkParents, hx]⟩
      · have hm' : nb ∈ y :: c' := by
          rcases List.mem_cons.mp hm with h | h
          · exact absurd h hx
          · exact h
        have hwalk : walkParents parent (fuel + 1) x nb =
            y :: walkParents parent fuel y nb := by
          simp only [walkParents]
          rw [if_neg (by simp [beq_iff_eq]; exact fun e => hx e.symm), h1]
        rcases ih y nb fuel h2 hm' (by simpa using Nat.lt_of_succ_lt_succ hf) with
          ⟨hey, hw⟩ | ⟨c₁, c₂, hsplit, hnotin, hney, hw⟩
        · subst hey
          refine Or.inr ⟨[], c', rfl, by simp, hx, ?_⟩
          rw [hwalk, hw]
          rfl
        · refine Or.inr ⟨y :: c₁, c₂, by rw [hsplit]; rfl, ?_, hx, ?_⟩
          · intro hc
            rcases List.mem_cons.mp hc with h | h
            · exact hney h
            · exact hnotin h
          · rw [hwalk, hw]
            rfl

/-- Chain elements are parent keys, bounding the chain length. -/
theorem parentChain_length_le (parent : List (String × Option String))
    (l : List String) (hchain : parentChain parent l) (hnd : l.Nodup) :
    l.length ≤ parent.length := by
  have hsub : ∀ x ∈ l, x ∈ parent.map Prod.fst := by
    intro x hx
    obtain ⟨o, ho⟩ := parentChain_isSome parent l hchain x hx
    obtain ⟨pr, hm, h1, _⟩ := lookupParent_some_entry ho
    exact h1 ▸ List.mem_map_of_mem Prod.fst hm
  have := (hnd.subperm hsub).length_le
  simpa using this

/-- The cycle list built at a back edge has the shape: closing node
duplicated at the front, then a genuine directed cycle. -/
theorem cycle_construction (net : NetworkBC) (parent : List (String × Option String))
    (node nb : String) (rest : List String)
    (hchain : parentChain parent (node :: rest))
    (hPE : ParentEdges net parent)
    (hnd : (node :: rest).Nodup)
    (hmem : nb ∈ node :: rest)
    (hedge : bcEdge net node nb = true) :
    CycleShape net
      ((node :: (walkParents parent (parent.length + 1) node nb ++ [nb])).reverse) := by
  have hflen : rest.length < parent.length + 1 := by
    have := parentChain_length_le parent (node :: rest) hchain hnd
    simp at this
    omega
  rcases walkParents_spec parent rest node nb (parent.length + 1) hchain hmem hflen with
    ⟨hnx, hw⟩ | ⟨c₁, c₂, hsplit, hnotin, hne, hw⟩
  · subst hnx
    rw [hw]
    refine ⟨nb, [], by simp, ?_⟩
    unfold isCycleList
    exact ⟨List.nodup_singleton nb, by simp [isEdgePath, hedge]⟩
  · rw [hw]
    refine ⟨nb, c₁.reverse ++ [node], ?_, ?_⟩
    · simp [List.reverse_append]
    · unfold isCycleList
      constructor
      · subst hsplit
        simp only [List.nodup_cons, List.mem_cons, List.mem_append,
          List.nodup_append, List.mem_singleton, List.mem_reverse,
          List.nodup_reverse, List.nodup_singleton, List.disjoint_singleton] at hnd
        have hnode_c₁ : node ∉ c₁ := fun h => hnd.1 (Or.inl h)
        have hnb_ne : nb ∉ c₁.reverse ++ [node] := by
          simp only [List.mem_append, List.mem_reverse, List.mem_singleton]
          rintro (h | h)
          · exact hnotin h
          · exact hne h
        rw [List.nodup_cons]
        refine ⟨hnb_ne, List.Nodup.append ?_ (List.nodup_singleton node) ?_⟩
        · rw [List.nodup_reverse]
          exact hnd.2.1
        · intro x hx hx2
          rw [List.mem_reverse] at hx
          rw [List.mem_singleton] at hx2
          exact hnode_c₁ (hx2 ▸ hx)
      · have hlink : chainLinked parent (node :: (c₁ ++ [nb])) := by
          have h0 : chainLinked parent (node :: rest) := parentChain_linked parent _ hchain
          rw [hsplit] at h0
          have := chainLinked_take parent (node :: c₁) nb c₂ (by simpa using h0)
          simpa using this
        have hup := chain_to_path net parent hPE c₁ node nb hlink
        have := isEdgePath_concat net (c₁.reverse ++ [node]) nb nb hup
          (by rw [List.getLastD_concat]; exact hedge)
        simpa using this

/-! ## C3: fuel counting and completion-order index lemmas -/

/-- A pointwise-smaller predicate with a strict witness has a strictly
smaller count. -/
theorem countP_lt_of {α : Type} (p q : α → Bool) :
    ∀ l : List α, (∀ x ∈ l, p x = true → q x = true) →
      ∀ w ∈ l, q w = true → p w = false → l.countP p < l.countP q := by
  intro l
  induction l with
  | nil => intro _ w hw; cases hw
  | cons a l' ih =>
      intro hpq w hw hq hp
      rw [List.countP_cons, List.countP_cons]
      rcases List.mem_cons.mp hw with hw | hw
      · subst hw
        have hmono := List.countP_mono_left (fun x hx => hpq x (List.mem_cons_of_mem _ hx))
        rw [hp, hq]
        simp
        omega
      · have := ih (fun x hx => hpq x (List.mem_cons_of_mem _ hx)) w hw hq hp
        by_cases hpa : p a = true
        · rw [hpa, hpq a (List.mem_cons_self a l') hpa]
          omega
        · rw [Bool.of_not_eq_true hpa]
          simp
          omega

/-- Growing the visited set never increases the unvisited count. -/
theorem unvisCount_mono (net : NetworkBC) {v1 v2 : List String}
    (h : ∀ x ∈ v1, x ∈ v2) : unvisCount net v2 ≤ unvisCount net v1 := by
  unfold unvisCount
  rw [← List.countP_eq_length_filter, ← List.countP_eq_length_filter]
  refine List.countP_mono_left ?_
  intro x _ hx
  simp only [Bool.not_eq_true', decide_eq_false_iff_not] at hx ⊢
  exact fun hc => hx (h x hc)

/-- Visiting a new universe name strictly decreases the unvisited count. -/
theorem unvisCount_strict (net : NetworkBC) {v1 v2 : List String}
    (h : ∀ x ∈ v1, x ∈ v2) (w : String) (hw1 : w ∉ v1) (hw2 : w ∈ v2)
    (hwu : w ∈ bcUniverse net) : unvisCount net v2 < unvisCount net v1 := by
  unfold unvisCount
  rw [← List.countP_eq_length_filter, ← List.countP_eq_length_filter]
  refine countP_lt_of _ _ _ ?_ w (List.mem_dedup.mpr hwu) ?_ ?_
  · intro x _ hx
    simp only [Bool.not_eq_true', decide_eq_false_iff_not] at hx ⊢
    exact fun hc => hx (h x hc)
  · simp [hw1]
  · simp [hw2]

/-- Index of a freshly appended element. -/
theorem indexOf_concat_self {a : String} {l : List String} (h : a ∉ l) :
    (l ++ [a]).indexOf a = l.length := by
  induction l with
  | nil => simp
  | cons b l' ih =>
      have hab : b ≠ a := fun e => h (e ▸ List.mem_cons_self b l')
      have h' : a ∉ l' := fun e => h (List.mem_cons_of_mem b e)
      rw [List.cons_append, List.indexOf_cons_ne _ hab, ih h']
      rfl

/-! ## C3: completion-order invariant maintenance -/

/-- Appending a node all of whose forward successors are already finished
keeps the finished list edge-decreasing. -/
theorem FinOrd_extend (net : NetworkBC) (fin : List String) (node : String)
    (hord : FinOrd net fin) (hnode : node ∉ fin)
    (hnbs : ∀ w, bcEdge net node w = true → w ∈ fin) :
    FinOrd net (fin ++ [node]) := by
  intro u w hedge hu
  rcases List.mem_append.mp hu with hu | hu
  · obtain ⟨hwf, hidx⟩ := hord u w hedge hu
    refine ⟨List.mem_append.mpr (Or.inl hwf), ?_⟩
    rw [List.indexOf_append_of_mem hwf, List.indexOf_append_of_mem hu]
    exact hidx
  · rw [List.mem_singleton] at hu
    subst hu
    have hwf := hnbs w hedge
    refine ⟨List.mem_append.mpr (Or.inl hwf), ?_⟩
    rw [List.indexOf_append_of_mem hwf, indexOf_concat_self hnode]
    exact List.indexOf_lt_length.mpr hwf

/-- Completing a node — popping it from the stack into the finished list —
preserves the completeness invariant once all its forward successors are
finished. -/
theorem CInv_finish (net : NetworkBC) (node : String) (rs : List String) (acc : BcAccI)
    (hC : CInv net (node :: rs) acc)
    (hnbs : ∀ w, bcEdge net node w = true → w ∈ acc.finished) :
    CInv net rs { acc with finished := acc.finished ++ [node] } := by
  obtain ⟨h1, h2, h3, h4, h5, h6⟩ := hC
  have hnodefin : node ∉ acc.finished := h2 node (List.mem_cons_self _ _)
  refine ⟨?_, ?_, ?_, (List.nodup_cons.mp h4).2, h5,
    FinOrd_extend net acc.finished node h6 hnodefin hnbs⟩
  · intro x
    rw [h1 x]
    simp only [List.mem_append, List.mem_singleton, List.mem_cons]
    tauto
  · intro x hx
    simp only [List.mem_append, List.mem_singleton]
    rintro (hf | he)
    · exact h2 x (List.mem_cons_of_mem _ hx) hf
    · rw [List.nodup_cons] at h4
      exact h4.1 (he ▸ hx)
  · refine List.Nodup.append h3 (List.nodup_singleton node) ?_
    intro x hx hx2
    rw [List.mem_singleton] at hx2
    exact hnodefin (hx2 ▸ hx)

/-- Pushing an unvisited node onto the stack (marking it visited) preserves
the completeness invariant. -/
theorem CInv_push (net : NetworkBC) (v : String) (rs : List String) (acc : BcAccI)
    (hC : CInv net rs acc) (hv : v ∉ acc.visited) (hnd : (v :: rs).Nodup) :
    CInv net (v :: rs) { acc with visited := v :: acc.visited } := by
  obtain ⟨h1, h2, h3, h4, h5, h6⟩ := hC
  have hfin_sub : ∀ x ∈ acc.finished, x ∈ acc.visited := fun x hx => (h1 x).mpr (Or.inl hx)
  refine ⟨?_, ?_, h3, hnd, h5, h6⟩
  · intro x
    simp only [List.mem_cons]
    rw [h1 x]
    tauto
  · intro x hx
    rcases List.mem_cons.mp hx with hx | hx
    · exact fun hf => hv (hx ▸ hfin_sub x (hx ▸ hf))
    · exact h2 x hx

/-! ## C3: the main invariant of the has_cycle dfs -/

/-- Combined invariant lemma for the instrumented dfs.  With sufficient
fuel (the unvisited-count potential), well-formed parent data and the
completeness invariant: a `true` result carries a cycle of the canonical
shape, and a `false` result has grown visited/parent/finished monotonically,
finished the task's node, and re-established every invariant with the node
popped from the stack. -/
theorem bcRunI_main (net : NetworkBC) : ∀ fuel (task : BcTask) (acc : BcAccI),
    ParentEdges net acc.parent →
    (match task with
     | BcTask.visit v rs =>
         (∀ pr ∈ acc.parent, pr.1 ∈ acc.visited ∨ pr.1 = v) ∧
         v ∉ acc.visited ∧ v ∈ bcUniverse net ∧
         (∀ x ∈ rs, x ∈ acc.visited) ∧ (v :: rs).Nodup ∧
         parentChain acc.parent (v :: rs) ∧
         CInv net rs acc ∧
         unvisCount net acc.visited * (net.relations.length + 2) < fuel
     | BcTask.loop node rs' nbs =>
         (∀ pr ∈ acc.parent, pr.1 ∈ acc.visited) ∧
         rs'.head? = some node ∧
         (∀ x ∈ rs', x ∈ acc.visited) ∧ rs'.Nodup ∧
         parentChain acc.parent rs' ∧
         (∃ done, bcNeighbors net node = done ++ nbs ∧ ∀ w ∈ done, w ∈ acc.finished) ∧
         CInv net rs' acc ∧
         unvisCount net acc.visited * (net.relations.length + 2) + nbs.length + 1 ≤ fuel) →
    ((bcRunI net fuel task acc).1 = true →
        CycleShape net (bcRunI net fuel task acc).2.cycle) ∧
    ((bcRunI net fuel task acc).1 = false →
        (∀ x ∈ acc.visited, x ∈ (bcRunI net fuel task acc).2.visited) ∧
        (∃ mp, (bcRunI net fuel task acc).2.parent = acc.parent ++ mp) ∧
        (∃ mf, (bcRunI net fuel task acc).2.finished = acc.finished ++ mf) ∧
        (∀ pr ∈ (bcRunI net fuel task acc).2.parent,
          pr.1 ∈ (bcRunI net fuel task acc).2.visited) ∧
        ParentEdges net (bcRunI net fuel task acc).2.parent ∧
        (match task with
         | BcTask.visit v _ => v
         | BcTask.loop node _ _ => node) ∈ (bcRunI net fuel task acc).2.finished ∧
        CInv net
          (match task with
           | BcTask.visit _ rs => rs
           | BcTask.loop _ rs' _ => rs'.tail) (bcRunI net fuel task acc).2) := by
  intro fuel
  induction fuel with
  | zero =>
      intro task acc hPE hpre
      cases task with
      | visit v rs =>
          obtain ⟨_, _, _, _, _, _, _, hfuel⟩ := hpre
          omega
      | loop node rs' nbs =>
          obtain ⟨_, _, _, _, _, _, _, hfuel⟩ := hpre
          omega
  | succ fuel ih =>
      intro task acc hPE hpre
      cases task with
      | visit v rs =>
          obtain ⟨hkeys, hv, hvu, hrs, hnd, hchain, hC, hfuel⟩ := hpre
          simp only [bcRunI]
          have hcnt : unvisCount net (v :: acc.visited) < unvisCount net acc.visited :=
            unvisCount_strict net (fun x hx => List.mem_cons_of_mem _ hx) v hv
              (List.mem_cons_self _ _) hvu
          have hK : (bcNeighbors net v).length ≤ net.relations.length :=
            List.length_filterMap_le _ _
          have hmul : (unvisCount net (v :: acc.visited) + 1) * (net.relations.length + 2) ≤
              unvisCount net acc.visited * (net.relations.length + 2) :=
            Nat.mul_le_mul_right _ (by omega)
          rw [Nat.add_mul, one_mul] at hmul
          have hthis := ih (BcTask.loop v (v :: rs) (bcNeighbors net v))
            { acc with visited := v :: acc.visited } hPE
            ⟨fun pr hpr => by
                rcases hkeys pr hpr with h | h
                · exact List.mem_cons_of_mem _ h
                · exact h ▸ List.mem_cons_self _ _,
              rfl,
              fun x hx => by
                rcases List.mem_cons.mp hx with h | h
                · exact h ▸ List.mem_cons_self _ _
                · exact List.mem_cons_of_mem _ (hrs x h),
              hnd, hchain, ⟨[], rfl, by simp⟩,
              CInv_push net v rs acc hC hv hnd,
              by
                show unvisCount net (v :: acc.visited) * (net.relations.length + 2) +
                  (bcNeighbors net v).length + 1 ≤ fuel
                omega⟩
          refine ⟨hthis.1, fun h => ?_⟩
          obtain ⟨hmono, hmp, hmf, hk, hp, hmem, hCpost⟩ := hthis.2 h
          exact ⟨fun x hx => hmono x (List.mem_cons_of_mem _ hx), hmp, hmf, hk, hp, hmem, hCpost⟩
      | loop node rs' nbs =>
          obtain ⟨hkeys, hhead, hstack, hnd, hchain, ⟨done, hdone, hdonefin⟩, hC, hfuel⟩ := hpre
          obtain ⟨rs0, rfl⟩ : ∃ rs0, rs' = node :: rs0 := by
            cases rs' with
            | nil => simp at hhead
            | cons a t =>
                simp only [List.head?_cons, Option.some.injEq] at hhead
                exact ⟨t, by rw [hhead]⟩
          cases nbs with
          | nil =>
              simp only [bcRunI]
              refine ⟨fun h => by simp at h, fun _ => ?_⟩
              have hnbsall : ∀ w, bcEdge net node w = true → w ∈ acc.finished := by
                intro w hw
                have hmem : w ∈ bcNeighbors net node := (bcNeighbors_iff net node w).mpr hw
                rw [hdone, List.append_nil] at hmem
                exact hdonefin w hmem
              exact ⟨fun x hx => hx, ⟨[], by simp⟩, ⟨[node], rfl⟩, hkeys, hPE,
                List.mem_append.mpr (Or.inr (List.mem_singleton.mpr rfl)),
                CInv_finish net node rs0 acc hC hnbsall⟩
          | cons nb rest =>
              simp only [bcRunI]
              have hnbnbr : nb ∈ bcNeighbors net node := by
                rw [hdone]
                exact List.mem_append.mpr (Or.inr (List.mem_cons_self _ _))
              have hnbedge : bcEdge net node nb = true := (bcNeighbors_iff net node nb).mp hnbnbr
              by_cases hvnb : nb ∈ acc.visited
              · rw [if_pos hvnb]
                by_cases hback : nb ∈ node :: rs0 ∧ acc.cycle = []
                · rw [if_pos hback]
                  exact ⟨fun _ => cycle_construction net acc.parent node nb rs0 hchain hPE hnd
                      hback.1 hnbedge,
                    fun h => by simp at h⟩
                · rw [if_neg hback]
                  have hcyc0 : acc.cycle = [] := hC.2.2.2.2.1
                  have hnbrs : nb ∉ node :: rs0 := fun hm => hback ⟨hm, hcyc0⟩
                  have hnbfin : nb ∈ acc.finished := by
                    rcases (hC.1 nb).mp hvnb with h | h
                    · exact h
                    · exact absurd h hnbrs
                  have hthis := ih (BcTask.loop node (node :: rs0) rest) acc hPE
                    ⟨hkeys, rfl, hstack, hnd, hchain,
                      ⟨done ++ [nb], by rw [hdone, List.append_assoc]; rfl,
                        fun w hw => by
                          rcases List.mem_append.mp hw with h | h
                          · exact hdonefin w h
                          · rw [List.mem_singleton] at h
                            exact h ▸ hnbfin⟩,
                      hC, by simp at hfuel ⊢; omega⟩
                  exact hthis
              · rw [if_neg hvnb]
                have hfresh : ∀ pr ∈ acc.parent, pr.1 ≠ nb := fun pr hpr he =>
                  hvnb (he ▸ hkeys pr hpr)
                have hPE' : ParentEdges net (acc.parent ++ [(nb, some node)]) := by
                  intro pr hpr q hq
                  rcases List.mem_append.mp hpr with h | h
                  · exact hPE pr h q hq
                  · rw [List.mem_singleton] at h
                    subst h
                    simp only [Option.some.injEq] at hq
                    rw [← hq]
                    exact hnbedge
                have hchain' : parentChain (acc.parent ++ [(nb, some node)])
                    (nb :: node :: rs0) :=
                  ⟨lookupParent_append_fresh acc.parent nb (some node) hfresh,
                    parentChain_append _ _ _ hchain⟩
                have hnbrs : nb ∉ node :: rs0 := fun hm => hvnb (hstack nb hm)
                have hchild := ih (BcTask.visit nb (node :: rs0))
                  { acc with parent := acc.parent ++ [(nb, some node)] } hPE'
                  ⟨fun pr hpr => by
                      rcases List.mem_append.mp hpr with h | h
                      · exact Or.inl (hkeys pr h)
                      · rw [List.mem_singleton] at h
                        exact Or.inr (by rw [h]),
                    hvnb, bcNeighbors_mem_universe net node nb hnbnbr,
                    hstack, List.nodup_cons.mpr ⟨hnbrs, hnd⟩, hchain', hC,
                    by simp at hfuel ⊢; omega⟩
                rcases hres : bcRunI net fuel (BcTask.visit nb (node :: rs0))
                    { acc with parent := acc.parent ++ [(nb, some node)] } with ⟨b, acc''⟩
                rw [hres] at hchild
                cases b with
                | true =>
                    refine ⟨fun _ => hchild.1 rfl, fun h => by simp at h⟩
                | false =>
                    obtain ⟨hmono1, ⟨mp1, hmp1⟩, ⟨mf1, hmf1⟩, hkeys1, hPE1, hnbfin1, hC1⟩ :=
                      hchild.2 rfl
                    have hnbvis'' : nb ∈ acc''.visited := (hC1.1 nb).mpr (Or.inl hnbfin1)
                    have hstrict : unvisCount net acc''.visited < unvisCount net acc.visited :=
                      unvisCount_strict net (fun x hx => hmono1 x hx) nb hvnb hnbvis''
                        (bcNeighbors_mem_universe net node nb hnbnbr)
                    have hmul : (unvisCount net acc''.visited + 1) * (net.relations.length + 2) ≤
                        unvisCount net acc.visited * (net.relations.length + 2) :=
                      Nat.mul_le_mul_right _ (by omega)
                    rw [Nat.add_mul, one_mul] at hmul
                    have hrest := ih (BcTask.loop node (node :: rs0) rest) acc'' hPE1
                      ⟨hkeys1, rfl, fun x hx => hmono1 x (hstack x hx), hnd,
                        by rw [hmp1, List.append_assoc]
                           exact parentChain_append _ _ _ hchain,
                        ⟨done ++ [nb], by rw [hdone, List.append_assoc]; rfl,
                          fun w hw => by
                            rcases List.mem_append.mp hw with h | h
                            · rw [hmf1]
                              exact List.mem_append.mpr (Or.inl (hdonefin w h))
                            · rw [List.mem_singleton] at h
                              exact h ▸ hnbfin1⟩,
                        hC1, by simp at hfuel ⊢; omega⟩
                    refine ⟨hrest.1, fun h => ?_⟩
                    obtain ⟨hmono2, ⟨mp2, hmp2⟩, ⟨mf2, hmf2⟩, hk2, hp2, hmem2, hC2⟩ :=
                      hrest.2 h
                    refine ⟨fun x hx => hmono2 x (hmono1 x hx),
                      ⟨[(nb, some node)] ++ mp1 ++ mp2, ?_⟩,
                      ⟨mf1 ++ mf2, ?_⟩, hk2, hp2, hmem2, hC2⟩
                    · rw [hmp2, hmp1]
                      simp [List.append_assoc]
                    · rw [hmf2, hmf1]
                      simp [List.append_assoc]

/-! ## C3: the outer loop and the final cycle-detection theorems -/

/-- The invariant holds initially. -/
theorem CInv_init (net : NetworkBC) : CInv net [] ⟨[], [], [], []⟩ :=
  ⟨by simp, by simp, List.nodup_nil, List.nodup_nil, rfl,
    fun u _ _ hu => absurd hu (List.not_mem_nil u)⟩

/-- Invariant lemma for the outer loop of has_cycle: the result is empty or
a canonically shaped cycle, and an empty result leaves the invariant with
every listed node visited. -/
theorem bcHasCycleGoI_main (net : NetworkBC) :
    ∀ ns acc, ParentEdges net acc.parent →
      (∀ pr ∈ acc.parent, pr.1 ∈ acc.visited) →
      CInv net [] acc →
      (∀ n ∈ ns, n.name ∈ bcUniverse net) →
      ((bcHasCycleGoI net ns acc).1 = [] ∨ CycleShape net (bcHasCycleGoI net ns acc).1) ∧
      ((bcHasCycleGoI net ns acc).1 = [] →
        CInv net [] (bcHasCycleGoI net ns acc).2 ∧
        (∀ x ∈ acc.visited, x ∈ (bcHasCycleGoI net ns acc).2.visited) ∧
        (∀ n ∈ ns, n.name ∈ (bcHasCycleGoI net ns acc).2.visited)) := by
  intro ns
  induction ns with
  | nil =>
      intro acc _ _ hC _
      exact ⟨Or.inl rfl, fun _ => ⟨hC, fun x hx => hx, by simp⟩⟩
  | cons n rest ih =>
      intro acc hPE hkeys hC hU
      simp only [bcHasCycleGoI]
      by_cases hv : n.name ∈ acc.visited
      · rw [if_pos hv]
        have hthis := ih acc hPE hkeys hC (fun m hm => hU m (List.mem_cons_of_mem _ hm))
        refine ⟨hthis.1, fun h => ?_⟩
        obtain ⟨hC', hmono, hall⟩ := hthis.2 h
        refine ⟨hC', hmono, fun m hm => ?_⟩
        rcases List.mem_cons.mp hm with hm | hm
        · exact hm ▸ hmono _ hv
        · exact hall m hm
      · rw [if_neg hv]
        have hfresh : ∀ pr ∈ acc.parent, pr.1 ≠ n.name := fun pr hpr he =>
          hv (he ▸ hkeys pr hpr)
        have hPE' : ParentEdges net (acc.parent ++ [(n.name, none)]) := by
          intro pr hpr q hq
          rcases List.mem_append.mp hpr with h | h
          · exact hPE pr h q hq
          · rw [List.mem_singleton] at h
            subst h
            cases hq
        have hUn : unvisCount net acc.visited ≤ (bcUniverse net).length :=
          le_trans (List.length_filter_le _ _) ((List.dedup_sublist _).length_le)
        have hmulU : unvisCount net acc.visited * (net.relations.length + 2) ≤
            (bcUniverse net).length * (net.relations.length + 2) :=
          Nat.mul_le_mul_right _ hUn
        have hrun := bcRunI_main net (bcFuel net) (BcTask.visit n.name [])
          { acc with parent := acc.parent ++ [(n.name, none)] } hPE'
          ⟨fun pr hpr => by
              rcases List.mem_append.mp hpr with h | h
              · exact Or.inl (hkeys pr h)
              · rw [List.mem_singleton] at h
                exact Or.inr (by rw [h]),
            hv, hU n (List.mem_cons_self _ _), by simp, List.nodup_singleton _,
            lookupParent_append_fresh acc.parent n.name none hfresh,
            hC, by
              show unvisCount net acc.visited * (net.relations.length + 2) < bcFuel net
              unfold bcFuel
              omega⟩
        rcases hres : bcRunI net (bcFuel net) (BcTask.visit n.name [])
            { acc with parent := acc.parent ++ [(n.name, none)] } with ⟨b, acc''⟩
        rw [hres] at hrun
        cases b with
        | true =>
            refine ⟨Or.inr (hrun.1 rfl), fun h => ?_⟩
            obtain ⟨w, r, he, _⟩ := hrun.1 rfl
            have h' : acc''.cycle = [] := h
            rw [h'] at he
            cases he
        | false =>
            obtain ⟨hmono1, _, _, hkeys1, hPE1, hmem1, hC1⟩ := hrun.2 rfl
            have hthis := ih acc'' hPE1 hkeys1 hC1
              (fun m hm => hU m (List.mem_cons_of_mem _ hm))
            refine ⟨hthis.1, fun h => ?_⟩
            obtain ⟨hC', hmono2, hall⟩ := hthis.2 h
            refine ⟨hC', fun x hx => hmono2 x (hmono1 x hx), fun m hm => ?_⟩
            rcases List.mem_cons.mp hm with hm | hm
            · have : n.name ∈ acc''.visited := (hC1.1 n.name).mpr (Or.inl hmem1)
              exact hm ▸ hmono2 _ this
            · exact hall m hm

/-- has_cycle returns either the empty list or a list of the canonical
cycle shape. -/
theorem hasCycle_disj (net : NetworkBC) :
    net.hasCycle = [] ∨ CycleShape net net.hasCycle := by
  rw [hasCycle_eq_instrumented]
  exact (bcHasCycleGoI_main net net.nodes ⟨[], [], [], []⟩
    (fun pr hpr => absurd hpr (List.not_mem_nil pr))
    (fun pr hpr => absurd hpr (List.not_mem_nil pr))
    (CInv_init net)
    (fun n hn => List.mem_append.mpr (Or.inl (List.mem_map_of_mem _ hn)))).1

/-- The source of any forward edge is a registered node name under the
well-formedness condition. -/
theorem bcEdge_source_mem (net : NetworkBC) {u w : String} (h : bcEdge net u w = true)
    (hWF : bcSourcesRegistered net) : u ∈ net.nodes.map Node.name := by
  unfold bcEdge at h
  rw [List.any_eq_true] at h
  obtain ⟨r, hr, hc⟩ := h
  simp only [Bool.and_eq_true, beq_iff_eq] at hc
  have := hWF r hr hc.2
  rwa [hc.1.1] at this

/-- Following a nonempty forward walk from a finished node strictly
decreases the completion index. -/
theorem isEdgePath_index_lt (net : NetworkBC) (fin : List String)
    (hord : FinOrd net fin) :
    ∀ l u, isEdgePath net u l = true → u ∈ fin → l ≠ [] →
      l.getLastD u ∈ fin ∧ fin.indexOf (l.getLastD u) < fin.indexOf u := by
  intro l
  induction l with
  | nil => intro u _ _ h; exact absurd rfl h
  | cons b l' ih =>
      intro u hp hu _
      simp only [isEdgePath, Bool.and_eq_true] at hp
      obtain ⟨hbf, hidx⟩ := hord u b hp.1 hu
      cases l' with
      | nil =>
          rw [List.getLastD_cons, List.getLastD_nil]
          exact ⟨hbf, hidx⟩
      | cons c l'' =>
          have hrec := ih b hp.2 hbf (by simp)
          rw [List.getLastD_cons]
          exact ⟨hrec.1, lt_trans hrec.2 hidx⟩

/-- Completeness of has_cycle: a directed cycle over forward edges in a
network whose forward-edge sources are registered nodes is always found. -/
theorem hasCycle_of_cycle (net : NetworkBC) (hWF : bcSourcesRegistered net)
    (hcyc : hasDirectedCycle net) : net.hasCycle ≠ [] := by
  intro hempty
  rw [hasCycle_eq_instrumented] at hempty
  have hmain := bcHasCycleGoI_main net net.nodes ⟨[], [], [], []⟩
    (fun pr hpr => absurd hpr (List.not_mem_nil pr))
    (fun pr hpr => absurd hpr (List.not_mem_nil pr))
    (CInv_init net)
    (fun n hn => List.mem_append.mpr (Or.inl (List.mem_map_of_mem _ hn)))
  obtain ⟨hCf, _, hall⟩ := hmain.2 hempty
  obtain ⟨a, l, hpath⟩ := hcyc
  have hfirst : ∃ w, bcEdge net a w = true := by
    cases l with
    | nil =>
        simp only [List.nil_append, isEdgePath, Bool.and_eq_true] at hpath
        exact ⟨a, hpath.1⟩
    | cons b l' =>
        simp only [List.cons_append, isEdgePath, Bool.and_eq_true] at hpath
        exact ⟨b, hpath.1⟩
  obtain ⟨w0, hw0⟩ := hfirst
  have hamem : a ∈ net.nodes.map Node.name := bcEdge_source_mem net hw0 hWF
  obtain ⟨n0, hn0, hn0a⟩ := List.mem_map.mp hamem
  have havis := hall n0 hn0
  rw [hn0a] at havis
  have hafin : a ∈ (bcHasCycleGoI net net.nodes ⟨[], [], [], []⟩).2.finished := by
    rcases (hCf.1 a).mp havis with h | h
    · exact h
    · exact absurd h (List.not_mem_nil a)
  have := isEdgePath_index_lt net _ hCf.2.2.2.2.2 (l ++ [a]) a hpath hafin (by simp)
  rw [List.getLastD_concat] at this
  omega

/-! ## C3: claim theorems -/

/-- C3 counterexample: on the Scenario D cycle A → B → C → A, has_cycle
returns ["A", "A", "B", "C"] — nonempty, but its first and last elements
differ (the closing node is duplicated at the front, not appended at the
back), refuting the claimed shape. -/
theorem c3_counterexample :
    exCycleBC.hasCycle = [("A"), ("A"), ("B"), ("C")] ∧
    exCycleBC.hasCycle ≠ [] ∧
    exCycleBC.hasCycle.head? ≠ exCycleBC.hasCycle.getLast? := by
  decide

/-- C3 amended: for every network containing a directed cycle over forward
edges (with forward-edge sources registered as nodes, true of every
network built through add_relation), has_cycle returns a nonempty
sequence; every nonempty result consists of the closing node repeated
twice followed by the rest of a duplicate-free node sequence that forms a
genuine directed cycle (consecutive forward edges, plus a forward edge
from its last element back to its head — so the first TWO elements are
equal, rather than the first and last); and for every network without a
directed cycle the result is empty. -/
theorem c3_amended :
    (∀ net : NetworkBC, net.hasCycle ≠ [] →
      ∃ w rest, net.hasCycle = w :: w :: rest ∧ isCycleList net (w :: rest)) ∧
    (∀ net : NetworkBC, ¬ hasDirectedCycle net → net.hasCycle = []) ∧
    (∀ net : NetworkBC, bcSourcesRegistered net → hasDirectedCycle net →
      net.hasCycle ≠ []) := by
  have hshape : ∀ net : NetworkBC, net.hasCycle ≠ [] → CycleShape net net.hasCycle := by
    intro net h
    rcases hasCycle_disj net with he | hs
    · exact absurd he h
    · exact hs
  refine ⟨fun net h => hshape net h, ?_, fun net => hasCycle_of_cycle net⟩
  intro net hnc
  by_contra h
  obtain ⟨w, rest, _, hcl⟩ := hshape net h
  simp only [isCycleList] at hcl
  exact hnc ⟨w, rest, hcl.2⟩

/-- Witness for C3 amended on the Scenario D cycle. -/
theorem c3_witness :
    (∃ w rest, exCycleBC.hasCycle = w :: w :: rest ∧
      isCycleList exCycleBC (w :: rest)) ∧
    exCycleBC.hasCycle ≠ [] :=
  ⟨c3_amended.1 exCycleBC (by decide),
    c3_amended.2.2 exCycleBC (by decide) ⟨("A"), [("B"), ("C")], by decide⟩⟩

end BayesNet
